import Mathlib

set_option maxRecDepth 8000
set_option maxHeartbeats 1000000

/-!
Verification of the block-parallel multi-codec compression core
(`lzw.c`, `huffman_predictor.c`, `rle_var.c`, `main.c`, `thread_pool.c`)
against its natural-language specification.

Machine integers are modelled as `Nat` with explicit `% 256` / `% 4096`
where the C code relies on fixed-width wrap-around.  Byte buffers are
`List Nat` whose entries are below 256.  Fallible C functions (returning
`-1` / `0`) are modelled as `Option`-valued functions.
-/

namespace GSEA

/-! ### Bit-stream utilities

`lzw.c` packs 12-bit codes LSB-first into bytes (`bw_write` / `br_read`);
`huffman_predictor.c` packs single bits MSB-first (`bw_write_bit` /
`br_read_bit`).  Bit buffers are modelled as `List Bool` in stream order. -/

/-- The low `w` bits of `v`, least-significant first
(the order in which `bw_write` of `lzw.c` drains its accumulator). -/
def bitsLSB : Nat → Nat → List Bool
  | 0, _ => []
  | w + 1, v => decide (v % 2 = 1) :: bitsLSB w (v / 2)

/-- Value of an LSB-first bit list. -/
def valLSB : List Bool → Nat
  | [] => 0
  | b :: bs => (if b then 1 else 0) + 2 * valLSB bs

/-- The low `w` bits of `v`, most-significant first
(the order of `bw_write_byte` and the 32-bit length field in
`huffman_predictor.c`). -/
def bitsMSB : Nat → Nat → List Bool
  | 0, _ => []
  | w + 1, v => bitsMSB w (v / 2) ++ [decide (v % 2 = 1)]

/-- Pack an LSB-first bit stream into bytes, padding the final partial byte
with zero bits (`bw_flush` of `lzw.c`). -/
def bytesOfBitsLSB : List Bool → List Nat
  | [] => []
  | b0 :: b1 :: b2 :: b3 :: b4 :: b5 :: b6 :: b7 :: rest =>
      valLSB [b0, b1, b2, b3, b4, b5, b6, b7] :: bytesOfBitsLSB rest
  | rest => [valLSB rest]

/-- The LSB-first bit stream of a byte list (`br_read` loads bytes LSB-first). -/
def bitsOfBytesLSB (bytes : List Nat) : List Bool :=
  (bytes.map (bitsLSB 8)).flatten

/-- Extract consecutive 12-bit codes from an LSB-first bit stream while at
least 12 bits remain (`br_read` of `lzw.c`: a trailing remainder of fewer
than 12 bits is dropped). -/
def codesOfBitsLSB : List Bool → List Nat
  | b0 :: b1 :: b2 :: b3 :: b4 :: b5 :: b6 :: b7 :: b8 :: b9 :: b10 :: b11 :: rest =>
      valLSB [b0, b1, b2, b3, b4, b5, b6, b7, b8, b9, b10, b11] :: codesOfBitsLSB rest
  | _ => []

/-! ### LZW codec (`lzw.c`) -/

def LZW_MAX_CODES : Nat := 4096

/-- Compressor state: the `next[code][byte]` trie (line 81 of `lzw.c`,
`-1` entries modelled as `none`), the next free code, and the code of the
current match. -/
structure LzwC where
  next : Nat → Nat → Option Nat
  nextCode : Nat
  code : Nat

/-- Initial compressor state: empty trie, next free code 256, current match
is the first input byte (`lzw_compress` lines 83–90). -/
def lzwCInit (b0 : Nat) : LzwC :=
  ⟨fun _ _ => none, 256, b0⟩

/-- One iteration of the `lzw_compress` main loop (lines 91–108) on input
byte `c`: extend the match if `(code, c)` exists, otherwise emit the current
code, insert `(code, c) ↦ nextCode` when the dictionary is not full, and
restart the match at `c`. -/
def lzwCStep (s : LzwC) (c : Nat) : LzwC × Option Nat :=
  match s.next s.code c with
  | some nc => (⟨s.next, s.nextCode, nc⟩, none)
  | none =>
      (⟨(if s.nextCode < LZW_MAX_CODES then
           fun a b => if a = s.code ∧ b = c then some s.nextCode else s.next a b
         else s.next),
        (if s.nextCode < LZW_MAX_CODES then s.nextCode + 1 else s.nextCode),
        c⟩,
       some s.code)

/-- Run the compressor loop over the remaining input, collecting emitted
codes in order. -/
def lzwCRun : LzwC → List Nat → List Nat × LzwC
  | s, [] => ([], s)
  | s, c :: cs =>
      match lzwCStep s c with
      | (s1, e) =>
          match lzwCRun s1 cs with
          | (es, sf) => (e.toList ++ es, sf)

/-- The 12-bit code sequence emitted by `lzw_compress` for a non-empty
input: the loop's emissions followed by the final pending code (line 110). -/
def lzwCompressCodes (b0 : Nat) (rest : List Nat) : List Nat :=
  match lzwCRun (lzwCInit b0) rest with
  | (es, sf) => es ++ [sf.code]

/-- `lzw_compress`: `None` for an empty input (line 77), otherwise the
emitted codes packed 12 bits LSB-first and flushed to whole bytes. -/
def lzw_compress (input : List Nat) : Option (List Nat) :=
  match input with
  | [] => none
  | b0 :: rest =>
      some (bytesOfBitsLSB ((lzwCompressCodes b0 rest).map (bitsLSB 12)).flatten)

/-- Decompressor state: `prefix`/`suffix` arrays (`-1` prefixes as `none`),
next free code and previously read code (`lzw_decompress` lines 144–160). -/
structure LzwD where
  pref : Nat → Option Nat
  suff : Nat → Nat
  nextCode : Nat
  oldCode : Nat

/-- Initial decompressor dictionary: codes 0–255 are single bytes
(prefix `-1`, suffix `i`); entries above 255 are uninitialised in the C
code and never read before being written. -/
def lzwDInit (c0 : Nat) : LzwD :=
  ⟨fun _ => none, fun k => k % 256, 256, c0⟩

/-- The decode stack built by walking `prefix`/`suffix` upward from `c`
(lines 180–189), listed bottom-of-stack first; the output is its reversal.
The fuel mirrors the 4096-byte `decode_stack` bound. -/
def chainStack (pref : Nat → Option Nat) (suff : Nat → Nat) : Nat → Nat → List Nat
  | 0, _ => []
  | fuel + 1, c =>
      suff c ::
        (match pref c with
         | none => []
         | some p => chainStack pref suff fuel p)

/-- Dictionary insertion after emitting a block (lines 204–210): when the
dictionary is not full, `prefix[nextCode] := oldCode`,
`suffix[nextCode] := firstChar`. -/
def lzwDInsert (d : LzwD) (firstChar : Nat) (inCode : Nat) : LzwD :=
  if d.nextCode < LZW_MAX_CODES then
    ⟨fun k => if k = d.nextCode then some d.oldCode else d.pref k,
     fun k => if k = d.nextCode then firstChar else d.suff k,
     d.nextCode + 1, inCode⟩
  else
    ⟨d.pref, d.suff, d.nextCode, inCode⟩

/-- One iteration of the `lzw_decompress` loop (lines 174–213) for the code
`code`: existing codes are decoded by reversing their chain stack; a code
equal to `nextCode` is the KwKwK case, where the C code pushes the first
character of the previous string on **top** of that string's stack before
the reversal; larger codes are an error. -/
def lzwDStep (d : LzwD) (code : Nat) : Option (LzwD × List Nat) :=
  if code < d.nextCode then
    let stk := chainStack d.pref d.suff LZW_MAX_CODES code
    some (lzwDInsert d (stk.getLastD 0) code, stk.reverse)
  else if code = d.nextCode then
    let stk0 := chainStack d.pref d.suff LZW_MAX_CODES d.oldCode
    if stk0 = [] then none
    else
      let fc := stk0.getLastD 0
      let stk := stk0 ++ [fc]
      some (lzwDInsert d fc code, stk.reverse)
  else none

/-- Run the decompressor loop over the code sequence, concatenating the
decoded blocks. -/
def lzwDRun : LzwD → List Nat → Option (List Nat)
  | _, [] => some []
  | d, c :: cs =>
      match lzwDStep d c with
      | none => none
      | some (d1, out) => (lzwDRun d1 cs).map (fun rest => out ++ rest)

/-- `lzw_decompress`: unpack 12-bit codes, require a literal (< 256) first
code (lines 159–170), then run the dictionary-rebuild loop. -/
def lzw_decompress (input : List Nat) : Option (List Nat) :=
  if input = [] then none
  else
    match codesOfBitsLSB (bitsOfBytesLSB input) with
    | [] => none
    | c0 :: rest =>
        if c0 < 256 then (lzwDRun (lzwDInit c0) rest).map (fun out => c0 :: out)
        else none

/-! ### Huffman + predictor codec (`huffman_predictor.c`)

MSB-first bit utilities first. -/

/-- MSB-first value of a bit list (the `sym = (sym << 1) | bit` folds of
`deserialize_tree` and the length read in `hp_decompress_buffer`). -/
def valMSB (bs : List Bool) : Nat :=
  bs.foldl (fun a b => 2 * a + if b then 1 else 0) 0

/-- Pack an MSB-first bit stream into bytes, padding the final partial byte
with zero bits (the `BitWriter` buffer is zero-initialised, and
`hp_compress_buffer` copies out `(bit_pos + 7) / 8` bytes). -/
def bytesOfBitsMSB : List Bool → List Nat
  | [] => []
  | b0 :: b1 :: b2 :: b3 :: b4 :: b5 :: b6 :: b7 :: rest =>
      valMSB [b0, b1, b2, b3, b4, b5, b6, b7] :: bytesOfBitsMSB rest
  | rest => [valMSB (rest ++ List.replicate (8 - rest.length) false)]

/-- The MSB-first bit stream of a byte list (`br_read_bit` with
`bit_offset = 7 - bit_pos % 8`, capacity `len * 8` bits). -/
def bitsOfBytesMSB (bytes : List Nat) : List Bool :=
  (bytes.map (bitsMSB 8)).flatten

/-- Read `n` bits MSB-first, accumulating `acc = (acc << 1) | bit`;
`none` when the stream runs out (a `br_read_bit` returning `-1`). -/
def readGoMSB : Nat → Nat → List Bool → Option (Nat × List Bool)
  | 0, acc, bits => some (acc, bits)
  | _ + 1, _, [] => none
  | n + 1, acc, b :: rest => readGoMSB n (2 * acc + if b then 1 else 0) rest

/-- Read an `n`-bit MSB-first value. -/
def readBitsMSB (n : Nat) (bits : List Bool) : Option (Nat × List Bool) :=
  readGoMSB n 0 bits

/-- Huffman tree node (`struct Node` of `huffman_predictor.c`); `null`
models a `NULL` child pointer.  A node with two `null` children is a leaf. -/
inductive HTree where
  | null : HTree
  | node (sym : Nat) (freq : Nat) (left right : HTree) : HTree
deriving DecidableEq

/-- `freq` field (0 for `NULL`). -/
def nodeFreq : HTree → Nat
  | .null => 0
  | .node _ f _ _ => f

/-- `BitWriter`: fixed byte capacity `cap`, bits written so far (in MSB-first
stream order; `bit_pos = bits.length`). -/
structure BitW where
  cap : Nat
  bits : List Bool

/-- `bw_write_bit`: append one bit, silently dropped once
`bit_pos >= capacity * 8` (line 65 of `huffman_predictor.c`). -/
def bwWriteBit (bw : BitW) (b : Bool) : BitW :=
  if bw.bits.length < 8 * bw.cap then ⟨bw.cap, bw.bits ++ [b]⟩ else bw

/-- Write a list of bits one at a time. -/
def bwWriteBits (bw : BitW) (bs : List Bool) : BitW :=
  bs.foldl bwWriteBit bw

/-- `bw_write_byte`: the 8 bits of a byte, most significant first. -/
def bwWriteByte (bw : BitW) (v : Nat) : BitW :=
  bwWriteBits bw (bitsMSB 8 v)

/-- `serialize_tree` (preorder): nothing for `NULL`; bit `1` + 8-bit symbol
for a leaf; bit `0` followed by both children for an internal node. -/
def serializeTree : HTree → BitW → BitW
  | .null, bw => bw
  | .node s _ .null .null, bw => bwWriteByte (bwWriteBit bw true) s
  | .node _ _ l r, bw => serializeTree r (serializeTree l (bwWriteBit bw false))

/-- `deserialize_tree`: flag bit `1` reads an 8-bit symbol leaf (`NULL` on
truncation), flag `0` reads two children recursively (a `NULL` child is
absorbed into the parent node), end of stream yields `NULL`.  The fuel
bounds the call depth; callers pass more fuel than there are bits, so the
zero-fuel case is unreachable. -/
def deserializeTree : Nat → List Bool → HTree × List Bool
  | 0, bits => (.null, bits)
  | _ + 1, [] => (.null, [])
  | _ + 1, true :: rest =>
      (match readBitsMSB 8 rest with
       | none => (.null, [])
       | some (sym, r1) => (HTree.node sym 0 .null .null, r1))
  | fuel + 1, false :: rest =>
      (match deserializeTree fuel rest with
       | (l, r1) =>
           match deserializeTree fuel r1 with
           | (r, r2) => (HTree.node 0 0 l r, r2))

/-- `build_codes`: assign each leaf its root-to-leaf path (`false` = left,
`true` = right); left subtree is visited first, updates accumulate into the
table. -/
def buildCodes : HTree → List Bool → (Nat → Option (List Bool)) → Nat → Option (List Bool)
  | .null, _, tbl => tbl
  | .node s _ .null .null, pfx, tbl => fun k => if k = s then some pfx else tbl k
  | .node _ _ l r, pfx, tbl => buildCodes r (pfx ++ [true]) (buildCodes l (pfx ++ [false]) tbl)

/-- The index pair `(i1, i2)` of the two lowest-frequency nodes, found by
the scan of `hp_compress_buffer` lines 198–203 (initialise with indices 0
and 1, swap if needed, then scan from index 2). -/
def huffSelect (ns : List HTree) : Nat × Nat :=
  (List.range ns.length).foldl
    (fun p i =>
      if i < 2 then p
      else if nodeFreq (ns.getD i .null) < nodeFreq (ns.getD p.1 .null) then (i, p.1)
      else if nodeFreq (ns.getD i .null) < nodeFreq (ns.getD p.2 .null) then (p.1, i)
      else p)
    (if nodeFreq (ns.getD 1 .null) < nodeFreq (ns.getD 0 .null) then (1, 0) else (0, 1))

/-- One merge step (lines 204–208): combine the two lowest-frequency nodes
into a parent (`left = a = nodes[i1]`, `right = b = nodes[i2]`), store the
parent at `i1`, move the last node into `i2`, shrink by one. -/
def huffStep (ns : List HTree) : List HTree :=
  match huffSelect ns with
  | (i1, i2) =>
      let a := ns.getD i1 .null
      let b := ns.getD i2 .null
      let ns1 := ns.set i1 (HTree.node 0 (nodeFreq a + nodeFreq b) a b)
      (ns1.set i2 (ns1.getD (ns1.length - 1) .null)).dropLast

/-- The `while (n > 1)` merge loop; the fuel (one per merge, callers pass
the list length) mirrors that each merge removes one node. -/
def huffLoop : Nat → List HTree → List HTree
  | 0, ns => ns
  | fuel + 1, ns => if 1 < ns.length then huffLoop fuel (huffStep ns) else ns

/-- `apply_predictor` inner loop: `buf[i] = cur - prev` in `uint8_t`
arithmetic, `prev := cur`. -/
def applyPredGo : Nat → List Nat → List Nat
  | _, [] => []
  | prev, x :: xs => (x % 256 + 256 - prev) % 256 :: applyPredGo (x % 256) xs

/-- `apply_predictor` (`huffman_predictor.c` lines 161–168), `prev` starts
at 0. -/
def apply_predictor (b : List Nat) : List Nat :=
  applyPredGo 0 b

/-- `undo_predictor` inner loop: `val = buf[i] + prev` in `uint8_t`
arithmetic, `prev := val`. -/
def undoPredGo : Nat → List Nat → List Nat
  | _, [] => []
  | prev, d :: ds => (d % 256 + prev) % 256 :: undoPredGo ((d % 256 + prev) % 256) ds

/-- `undo_predictor` (`huffman_predictor.c` lines 171–178). -/
def undo_predictor (b : List Nat) : List Nat :=
  undoPredGo 0 b

/-- `hp_compress_buffer`: predictor, frequency count, greedy tree build,
preorder tree serialization, 32-bit original length, then one code per
byte, all through a `BitWriter` of capacity `3 * len` bytes. -/
def hpCompress (input : List Nat) : Option (List Nat) :=
  if input = [] then none
  else
    let data := apply_predictor input
    let freq : Nat → Nat := fun s => data.count s
    let nodes := (List.range 256).filterMap
      (fun i => if freq i ≠ 0 then some (HTree.node i (freq i) .null .null) else none)
    let merged := huffLoop nodes.length nodes
    let root := if merged.length = 1 then merged.getD 0 .null else HTree.node 0 1 .null .null
    let tbl := buildCodes root [] (fun _ => none)
    let bw1 := serializeTree root ⟨3 * input.length, []⟩
    let bw2 := bwWriteBits bw1 (bitsMSB 32 input.length)
    let bw3 := data.foldl (fun bw d => bwWriteBits bw ((tbl d).getD [])) bw2
    some (bytesOfBitsMSB bw3.bits)

/-- One root-to-leaf walk of `hp_decompress_buffer` (lines 260–264): stop
at a leaf; on truncation the C code breaks out and emits the current
node's `sym` field; stepping into a `NULL` child dereferences `NULL` in C
(undefined behaviour), modelled as failure. -/
def hpWalk : HTree → List Bool → Option (Nat × List Bool)
  | .null, _ => none
  | .node s _ .null .null, bits => some (s, bits)
  | .node s _ _ _, [] => some (s, [])
  | .node _ _ l r, b :: rest => hpWalk (if b then r else l) rest

/-- Decode `origLen` symbols, restarting each walk at the root. -/
def hpDecodeSyms (root : HTree) : Nat → List Bool → Option (List Nat × List Bool)
  | 0, bits => some ([], bits)
  | n + 1, bits =>
      match hpWalk root bits with
      | none => none
      | some (s, rest) =>
          match hpDecodeSyms root n rest with
          | none => none
          | some (ss, r2) => some (s :: ss, r2)

/-- `hp_decompress_buffer`: rebuild the tree (`NULL` root is an error),
read the 32-bit original length (any failed bit read is an error), decode
that many symbols, undo the predictor. -/
def hpDecompress (input : List Nat) : Option (List Nat) :=
  if input = [] then none
  else
    let bits := bitsOfBytesMSB input
    match deserializeTree (bits.length + 1) bits with
    | (.null, _) => none
    | (root, rest) =>
        match readBitsMSB 32 rest with
        | none => none
        | some (origLen, r2) =>
            match hpDecodeSyms root origLen r2 with
            | none => none
            | some (syms, _) => some (undo_predictor syms)

/-! ### RLE codec (`rle_var.c`) -/

/-- Run length at the current position: `run = 1`, extended while the next
byte matches and `run < 127` (lines 63–64 of `rle_var.c`). -/
def runLenGo (v : Nat) : Nat → List Nat → Nat
  | run, [] => run
  | run, y :: ys => if y = v ∧ run < 127 then runLenGo v (run + 1) ys else run

/-- Literal accumulation (lines 70–81): take bytes while fewer than 127
are collected and no run of length ≥ 3 starts; returns collected bytes and
the remaining input. -/
def rleLitTake : Nat → List Nat → List Nat × List Nat
  | _, [] => ([], [])
  | n, y :: ys =>
      if n < 127 then
        if 3 ≤ runLenGo y 1 ys then ([], y :: ys)
        else
          match rleLitTake (n + 1) ys with
          | (lit, rest) => (y :: lit, rest)
      else ([], y :: ys)

/-- `rle_var_compress` main loop: a run of length ≥ 3 becomes
`0x80 | run` followed by the value; otherwise a literal block `n` followed
by `n` raw bytes.  Fuel is the input length (each block consumes ≥ 1
byte). -/
def rleVarCGo : Nat → List Nat → List Nat
  | 0, _ => []
  | _ + 1, [] => []
  | fuel + 1, x :: rest =>
      let run := runLenGo x 1 rest
      if 3 ≤ run then
        (128 + run) :: x :: rleVarCGo fuel (List.drop run (x :: rest))
      else
        match rleLitTake 1 rest with
        | (lit, rest2) => (lit.length + 1) :: x :: (lit ++ rleVarCGo fuel rest2)

/-- `rle_var_compress`; the empty input succeeds with empty output. -/
def rle_var_compress (input : List Nat) : Option (List Nat) :=
  some (rleVarCGo input.length input)

/-- `rle_var_decompress` block loop: high-bit headers are runs (value byte
must follow), other headers literal lengths (that many bytes must follow);
short blocks are errors. -/
def rleVarDGo : Nat → List Nat → Option (List Nat)
  | 0, _ => some []
  | _ + 1, [] => some []
  | fuel + 1, hdr :: rest =>
      if 128 ≤ hdr % 256 then
        match rest with
        | [] => none
        | v :: rest2 =>
            (rleVarDGo fuel rest2).map (fun tail => List.replicate (hdr % 256 - 128) v ++ tail)
      else
        if rest.length < hdr % 256 then none
        else (rleVarDGo fuel (rest.drop (hdr % 256))).map
          (fun tail => rest.take (hdr % 256) ++ tail)

/-- `rle_var_decompress`; the empty input succeeds with empty output. -/
def rle_var_decompress (input : List Nat) : Option (List Nat) :=
  rleVarDGo input.length input

/-! ### Chunked orchestration (`main.c`) -/

/-- The compression algorithms handled by the per-chunk switches
(`CompAlg` of `main.c`, restricted to the four buffer codecs). -/
inductive CompAlg where
  | rlevar | lzw | lzwpred | huffmanpred
deriving DecidableEq

/-- Mutable row state of `apply_predictor_sub` / `undo_predictor_sub`:
the buffer plus the per-channel `left[4]` array. -/
structure SubSt where
  buf : List Nat
  left : Nat → Nat

/-- One cell of `apply_predictor_sub`: `pred = cur - left[c]` (`uint8_t`),
store `pred`, remember `cur`. -/
def applySubCell (st : SubSt) (i c : Nat) : SubSt :=
  let cur := st.buf.getD i 0 % 256
  ⟨st.buf.set i ((cur + 256 - st.left c) % 256),
   fun k => if k = c then cur else st.left k⟩

/-- One cell of `undo_predictor_sub`: `cur = pred + left[c]` (`uint8_t`),
store `cur`, remember `cur`. -/
def undoSubCell (st : SubSt) (i c : Nat) : SubSt :=
  let cur := (st.buf.getD i 0 % 256 + st.left c) % 256
  ⟨st.buf.set i cur, fun k => if k = c then cur else st.left k⟩

/-- One row of the sub predictor: `left` restarts at 0 per row, cells are
visited in `x`-major, channel-minor order at offsets
`y*w*ch + x*ch + c`. -/
def subRow (cell : SubSt → Nat → Nat → SubSt) (wd ch base : Nat) (buf : List Nat) : List Nat :=
  ((List.range wd).foldl
     (fun st x => (List.range ch).foldl (fun st2 c => cell st2 (base + x * ch + c) c) st)
     ⟨buf, fun _ => 0⟩).buf

/-- `apply_predictor_sub` (`main.c` lines 134–150). -/
def apply_predictor_sub (wd ht ch : Nat) (buf : List Nat) : List Nat :=
  (List.range ht).foldl (fun b y => subRow applySubCell wd ch (y * wd * ch) b) buf

/-- `undo_predictor_sub` (`main.c` lines 152–168). -/
def undo_predictor_sub (wd ht ch : Nat) (buf : List Nat) : List Nat :=
  (List.range ht).foldl (fun b y => subRow undoSubCell wd ch (y * wd * ch) b) buf

/-- Per-block compression switch, shared by `compress_chunked` (lines
270–296) and `compress_chunk_worker` (lines 1076–1090): predictor variants
run `apply_predictor_sub(tmp, 1, 1, 1)` on a copy first. -/
def compressWorker (alg : CompAlg) (blk : List Nat) : Option (List Nat) :=
  match alg with
  | .rlevar => rle_var_compress blk
  | .lzw => lzw_compress blk
  | .lzwpred => lzw_compress (apply_predictor_sub 1 1 1 blk)
  | .huffmanpred => hpCompress (apply_predictor_sub 1 1 1 blk)

/-- Per-block decompression switch of `decompress_chunked` (lines 338–348):
predictor variants run `undo_predictor_sub(bout, 1, 1, 1)` afterwards. -/
def decompressBlock (alg : CompAlg) (blk : List Nat) : Option (List Nat) :=
  match alg with
  | .rlevar => rle_var_decompress blk
  | .lzw => lzw_decompress blk
  | .lzwpred => (lzw_decompress blk).map (undo_predictor_sub 1 1 1)
  | .huffmanpred => (hpDecompress blk).map (undo_predictor_sub 1 1 1)

/-- Split a buffer into chunks of (at most) `cs` bytes; the fuel is the
buffer length (each chunk consumes at least one byte when `cs ≥ 1`;
`cs = 0` would make the C loop spin forever). -/
def chunksGo : Nat → Nat → List Nat → List (List Nat)
  | 0, _, _ => []
  | _ + 1, _, [] => []
  | fuel + 1, cs, l => l.take cs :: chunksGo fuel cs (l.drop cs)

/-- `csize = min(in_len - pos, CH)` chunk splitting of `main.c`. -/
def chunksOf (cs : Nat) (l : List Nat) : List (List Nat) :=
  chunksGo l.length cs l

/-- `compress_chunked_parallel` (lines 1094–1149): one task per chunk, the
results placed by chunk index into the output (the task results are pure
functions of their chunk, so the assembled payload is the index-order
concatenation; theorem `c8_parallel_index_order` relates this to an
arbitrary completion order). -/
def compress_chunked_parallel (alg : CompAlg) (cs : Nat) (input : List Nat) : Option (List Nat) :=
  ((chunksOf cs input).mapM (compressWorker alg)).map List.flatten

/-- `compress_chunked` (lines 239–314): inputs larger than one chunk go to
the parallel path; otherwise a sequential loop compresses chunk by chunk
and concatenates (same result). -/
def compress_chunked (alg : CompAlg) (cs : Nat) (input : List Nat) : Option (List Nat) :=
  if cs < input.length then compress_chunked_parallel alg cs input
  else ((chunksOf cs input).mapM (compressWorker alg)).map List.flatten

/-- `decompress_chunked` (lines 317–359): the **compressed** buffer is
re-split into `cs`-byte chunks (there is no manifest of compressed block
lengths), each chunk decompressed independently, results concatenated. -/
def decompress_chunked (alg : CompAlg) (cs : Nat) (input : List Nat) : Option (List Nat) :=
  ((chunksOf cs input).mapM (decompressBlock alg)).map List.flatten

/-- Completion-order model of the parallel path: execute the chunk tasks
in the order given, each writing its result into its own slot of the
pre-sized result array (`tasks[i]` of `compress_chunked_parallel`). -/
def execTasks (alg : CompAlg) (blocks : List (List Nat)) :
    List Nat → (Nat → Option (List Nat)) → Nat → Option (List Nat)
  | [], slots => slots
  | i :: rest, slots =>
      execTasks alg blocks rest
        (fun j => if j = i then compressWorker alg (blocks.getD i []) else slots j)

/-- Payload assembled after running the tasks in `order`: slots read in
block-index order, any missing/failed block aborts (`tasks[i].err`). -/
def payloadInOrder (alg : CompAlg) (blocks : List (List Nat)) (order : List Nat) :
    Option (List Nat) :=
  (((List.range blocks.length).mapM (execTasks alg blocks order (fun _ => none)))).map
    List.flatten

/-! ### Worker pool (`thread_pool.c`)

The pool is modelled as an interleaving transition system over an abstract
state: the FIFO `queue`, the multiset of `running` tasks (C's `active`
counter is `running.length`), the `stop` flag, and the number of `exited`
workers out of `workers`.  `submitted`/`executed` are history variables
recording accepted submissions and completed executions. -/

structure PoolSt where
  queue : List Nat
  running : List Nat
  stop : Bool
  exited : Nat
  workers : Nat
  submitted : List Nat
  executed : List Nat

/-- `tp_create(n)`: empty queue, nothing running, `stop = 0`, all workers
alive (`nthreads == 0` is coerced to 1, line 86). -/
def poolInit (n : Nat) : PoolSt :=
  ⟨[], [], false, 0, if n = 0 then 1 else n, [], []⟩

/-- Atomic steps of the pool.
`submit`: `tp_submit` appends to the queue, rejected after `stop`
(lines 126–129).
`dequeue`: an idle worker (one that has not exited and is not running a
task) takes the queue head (`tp_worker_main` lines 66–69).
`finish`: a worker completes its task and decrements `active`
(lines 72–75).
`setStop`: `tp_destroy` sets the stop flag (line 166).
`exitWorker`: an idle worker passes the `if (tp->stop && tp->q_count == 0)
break` check (line 62) — only with `stop` set **and** the queue empty. -/
inductive PoolStep : PoolSt → PoolSt → Prop where
  | submit (s : PoolSt) (t : Nat) (h : s.stop = false) :
      PoolStep s ⟨s.queue ++ [t], s.running, s.stop, s.exited, s.workers,
                  s.submitted ++ [t], s.executed⟩
  | dequeue (s : PoolSt) (t : Nat) (rest : List Nat) (hq : s.queue = t :: rest)
      (hidle : s.exited + s.running.length < s.workers) :
      PoolStep s ⟨rest, t :: s.running, s.stop, s.exited, s.workers,
                  s.submitted, s.executed⟩
  | finish (s : PoolSt) (t : Nat) (h : t ∈ s.running) :
      PoolStep s ⟨s.queue, s.running.erase t, s.stop, s.exited, s.workers,
                  s.submitted, s.executed ++ [t]⟩
  | setStop (s : PoolSt) :
      PoolStep s ⟨s.queue, s.running, true, s.exited, s.workers,
                  s.submitted, s.executed⟩
  | exitWorker (s : PoolSt) (hstop : s.stop = true) (hq : s.queue = [])
      (hidle : s.exited + s.running.length < s.workers) :
      PoolStep s ⟨s.queue, s.running, s.stop, s.exited + 1, s.workers,
                  s.submitted, s.executed⟩

/-- Reachability by any interleaving of pool steps. -/
def PoolReach (s t : PoolSt) : Prop :=
  Relation.ReflTransGen PoolStep s t

/-! ### Invariants used by the claims -/

/-- LZW compressor dictionary invariant: the next free code stays in
`[256, 4096]`, every trie entry holds a code in `[256, nextCode)` (codes
0–255 are never the target of an entry: they remain the implicit
single-byte codes), and no code is the target of two entries. -/
def CInv (s : LzwC) : Prop :=
  256 ≤ s.nextCode ∧ s.nextCode ≤ LZW_MAX_CODES ∧
  (∀ a b c, s.next a b = some c → 256 ≤ c ∧ c < s.nextCode) ∧
  (∀ a b a2 b2 c, s.next a b = some c → s.next a2 b2 = some c → a = a2 ∧ b = b2)

/-- LZW decompressor dictionary invariant: codes 0–255 keep prefix `-1`
and suffix `i` (single-byte entries), the next free code stays in
`[256, 4096]`, and only codes in `[256, nextCode)` have a prefix entry. -/
def DInv (d : LzwD) : Prop :=
  (∀ i, i < 256 → d.pref i = none ∧ d.suff i = i) ∧
  256 ≤ d.nextCode ∧ d.nextCode ≤ LZW_MAX_CODES ∧
  (∀ k p, d.pref k = some p → 256 ≤ k ∧ k < d.nextCode)

/-- Pool safety invariant: at least one worker exists; the accepted
submissions are exactly the executed, running and queued tasks; exited
plus busy workers never exceed the pool size; workers exit only after
`stop`; and once every worker has exited nothing is queued or running. -/
def PoolInv (s : PoolSt) : Prop :=
  0 < s.workers ∧
  (s.executed ++ s.running ++ s.queue).Perm s.submitted ∧
  s.exited + s.running.length ≤ s.workers ∧
  (s.stop = false → s.exited = 0) ∧
  (s.exited = s.workers → s.queue = [] ∧ s.running = [])

end GSEA

namespace GSEA

/-! ## Helper lemmas -/

theorem ite_decide_mod_two (n : Nat) :
    (if decide (n % 2 = 1) then (1 : Nat) else 0) = n % 2 := by
  by_cases h : n % 2 = 1
  · simp [h]
  · simp [h]
    omega

/-- Splitting a modulus `2 ^ (w + 1)` into the low bit and the rest. -/
theorem mod_two_pow_succ (w v : Nat) :
    v % 2 ^ (w + 1) = v % 2 + 2 * (v / 2 % 2 ^ w) := by
  have h2w : (0 : Nat) < 2 ^ w := Nat.pow_pos (by norm_num)
  have hv2 : 2 ^ w * (v / 2 / 2 ^ w) + v / 2 % 2 ^ w = v / 2 := Nat.div_add_mod _ _
  have hr : v / 2 % 2 ^ w < 2 ^ w := Nat.mod_lt _ h2w
  have hd : 2 * (v / 2) + v % 2 = v := Nat.div_add_mod v 2
  have hv : v = 2 ^ (w + 1) * (v / 2 / 2 ^ w) + (2 * (v / 2 % 2 ^ w) + v % 2) :=
    calc v = 2 * (v / 2) + v % 2 := hd.symm
      _ = 2 * (2 ^ w * (v / 2 / 2 ^ w) + v / 2 % 2 ^ w) + v % 2 := by rw [hv2]
      _ = 2 ^ (w + 1) * (v / 2 / 2 ^ w) + (2 * (v / 2 % 2 ^ w) + v % 2) := by
          rw [pow_succ]; ring
  have hlt : 2 * (v / 2 % 2 ^ w) + v % 2 < 2 ^ (w + 1) := by
    rw [pow_succ]; omega
  calc v % 2 ^ (w + 1)
      = (2 ^ (w + 1) * (v / 2 / 2 ^ w) + (2 * (v / 2 % 2 ^ w) + v % 2)) % 2 ^ (w + 1) := by
        rw [← hv]
    _ = (2 * (v / 2 % 2 ^ w) + v % 2) % 2 ^ (w + 1) := Nat.mul_add_mod _ _ _
    _ = 2 * (v / 2 % 2 ^ w) + v % 2 := Nat.mod_eq_of_lt hlt
    _ = v % 2 + 2 * (v / 2 % 2 ^ w) := by ring

/-- Value of the low `w` LSB-first bits. -/
theorem valLSB_bitsLSB (w v : Nat) : valLSB (bitsLSB w v) = v % 2 ^ w := by
  induction w generalizing v with
  | zero => simp [bitsLSB, valLSB, Nat.mod_one]
  | succ w ih =>
      simp only [bitsLSB, valLSB, ih, ite_decide_mod_two]
      exact (mod_two_pow_succ w v).symm

/-- Reading `n + m` bits from a stream that starts with the `n` MSB-first
bits of `v`. -/
theorem readGo_bitsMSB (n : Nat) :
    ∀ (m acc v : Nat) (rest : List Bool), v < 2 ^ n →
      readGoMSB (n + m) acc (bitsMSB n v ++ rest) = readGoMSB m (acc * 2 ^ n + v) rest := by
  induction n with
  | zero =>
      intro m acc v rest hv
      interval_cases v
      simp [bitsMSB]
  | succ n ih =>
      intro m acc v rest hv
      have hv2 : v / 2 < 2 ^ n := by
        have : (2 : Nat) ^ (n + 1) = 2 ^ n * 2 := pow_succ 2 n
        omega
      have hstep : readGoMSB (m + 1) (acc * 2 ^ n + v / 2) (decide (v % 2 = 1) :: rest)
          = readGoMSB m (acc * 2 ^ (n + 1) + v) rest := by
        have harith : 2 * (acc * 2 ^ n + v / 2) + (if decide (v % 2 = 1) then (1 : Nat) else 0)
            = acc * 2 ^ (n + 1) + v := by
          rw [ite_decide_mod_two]
          have h1 : 2 * (v / 2) + v % 2 = v := Nat.div_add_mod v 2
          calc 2 * (acc * 2 ^ n + v / 2) + v % 2
              = acc * (2 ^ n * 2) + (2 * (v / 2) + v % 2) := by ring
            _ = acc * 2 ^ (n + 1) + v := by rw [h1, pow_succ]
        simp only [readGoMSB, harith]
      calc readGoMSB (n + 1 + m) acc (bitsMSB (n + 1) v ++ rest)
          = readGoMSB (n + (m + 1)) acc (bitsMSB n (v / 2) ++ (decide (v % 2 = 1) :: rest)) := by
            simp only [bitsMSB, List.append_assoc, List.singleton_append]
            congr 1
            omega
        _ = readGoMSB (m + 1) (acc * 2 ^ n + v / 2) (decide (v % 2 = 1) :: rest) :=
            ih (m + 1) acc (v / 2) _ hv2
        _ = readGoMSB m (acc * 2 ^ (n + 1) + v) rest := hstep

/-- `readBitsMSB` inverts `bitsMSB`. -/
theorem readBitsMSB_bitsMSB (n v : Nat) (rest : List Bool) (hv : v < 2 ^ n) :
    readBitsMSB n (bitsMSB n v ++ rest) = some (v, rest) := by
  have h := readGo_bitsMSB n 0 0 v rest hv
  simpa [readBitsMSB, readGoMSB] using h

/-- Reading more bits than remain fails (`br_read_bit` returns `-1`). -/
theorem readGoMSB_short (n : Nat) :
    ∀ (acc : Nat) (bits : List Bool), bits.length < n → readGoMSB n acc bits = none := by
  induction n with
  | zero => intro acc bits h; omega
  | succ n ih =>
      intro acc bits h
      cases bits with
      | nil => simp [readGoMSB]
      | cons b rest =>
          simp only [readGoMSB]
          exact ih _ rest (by simpa using Nat.lt_of_succ_lt_succ h)

/-- `valMSB` over a snoc. -/
theorem valMSB_append_bit (bs : List Bool) (b : Bool) :
    valMSB (bs ++ [b]) = 2 * valMSB bs + (if b then 1 else 0) := by
  simp [valMSB, List.foldl_append]

/-- `bitsMSB` inverts `valMSB` at the list's own length. -/
theorem bitsMSB_valMSB (bs : List Bool) : bitsMSB bs.length (valMSB bs) = bs := by
  induction bs using List.reverseRecOn with
  | nil => simp [bitsMSB, valMSB]
  | append_singleton bs b ih =>
      have hlen : (bs ++ [b]).length = bs.length + 1 := by simp
      rw [hlen, valMSB_append_bit, bitsMSB]
      have hdiv : (2 * valMSB bs + (if b then 1 else 0)) / 2 = valMSB bs := by
        cases b
        · simp
        · have h1 : (2 * valMSB bs + 1) / 2 = valMSB bs := by omega
          simpa using h1
      have hmod : decide ((2 * valMSB bs + (if b then 1 else 0)) % 2 = 1) = b := by
        cases b
        · have h0 : (2 * valMSB bs + 0) % 2 = 0 := by omega
          simp at h0
          simp [h0]
        · have h1 : (2 * valMSB bs + 1) % 2 = 1 := by omega
          simpa using h1
      rw [hdiv, hmod, ih]

/-- Unpacking the packed MSB-first bit stream returns the stream plus the
zero padding of the final byte. -/
theorem bitsOfBytes_bytesOfBits (bits : List Bool) :
    bitsOfBytesMSB (bytesOfBitsMSB bits)
      = bits ++ List.replicate ((8 - bits.length % 8) % 8) false := by
  induction bits using bytesOfBitsMSB.induct with
  | case1 => simp [bytesOfBitsMSB, bitsOfBytesMSB]
  | case2 b0 b1 b2 b3 b4 b5 b6 b7 rest ih =>
      have h8 : bitsMSB 8 (valMSB [b0, b1, b2, b3, b4, b5, b6, b7])
          = [b0, b1, b2, b3, b4, b5, b6, b7] := by
        have h := bitsMSB_valMSB [b0, b1, b2, b3, b4, b5, b6, b7]
        simpa using h
      simp only [bitsOfBytesMSB] at ih ⊢
      simp only [bytesOfBitsMSB, List.map_cons, List.flatten_cons, h8, ih]
      have hmod : (8 - (rest.length + 8) % 8) % 8 = (8 - rest.length % 8) % 8 := by omega
      simp [hmod, List.append_assoc]
  | case3 rest h1 h2 =>
      rcases rest with _ | ⟨a0, _ | ⟨a1, _ | ⟨a2, _ | ⟨a3, _ | ⟨a4, _ | ⟨a5, _ | ⟨a6, _ | ⟨a7, t⟩⟩⟩⟩⟩⟩⟩⟩
      · exact absurd rfl h1
      · have h := bitsMSB_valMSB ([a0] ++ List.replicate 7 false)
        simp only [List.singleton_append, List.length_cons, List.length_replicate] at h
        simp [bytesOfBitsMSB, bitsOfBytesMSB, h]
        exact h
      · have h := bitsMSB_valMSB ([a0, a1] ++ List.replicate 6 false)
        simp only [List.cons_append, List.nil_append, List.length_cons,
          List.length_replicate] at h
        simp [bytesOfBitsMSB, bitsOfBytesMSB, h]
        exact h
      · have h := bitsMSB_valMSB ([a0, a1, a2] ++ List.replicate 5 false)
        simp only [List.cons_append, List.nil_append, List.length_cons,
          List.length_replicate] at h
        simp [bytesOfBitsMSB, bitsOfBytesMSB, h]
        exact h
      · have h := bitsMSB_valMSB ([a0, a1, a2, a3] ++ List.replicate 4 false)
        simp only [List.cons_append, List.nil_append, List.length_cons,
          List.length_replicate] at h
        simp [bytesOfBitsMSB, bitsOfBytesMSB, h]
        exact h
      · have h := bitsMSB_valMSB ([a0, a1, a2, a3, a4] ++ List.replicate 3 false)
        simp only [List.cons_append, List.nil_append, List.length_cons,
          List.length_replicate] at h
        simp [bytesOfBitsMSB, bitsOfBytesMSB, h]
        exact h
      · have h := bitsMSB_valMSB ([a0, a1, a2, a3, a4, a5] ++ List.replicate 2 false)
        simp only [List.cons_append, List.nil_append, List.length_cons,
          List.length_replicate] at h
        simp [bytesOfBitsMSB, bitsOfBytesMSB, h]
        exact h
      · have h := bitsMSB_valMSB ([a0, a1, a2, a3, a4, a5, a6] ++ List.replicate 1 false)
        simp only [List.cons_append, List.nil_append, List.length_cons,
          List.length_replicate] at h
        simp [bytesOfBitsMSB, bitsOfBytesMSB, h]
        exact h
      · exact absurd rfl (h2 a0 a1 a2 a3 a4 a5 a6 a7 t)

/-- The packed byte count is `(bit_pos + 7) / 8`, as in
`hp_compress_buffer`'s output-size computation. -/
theorem length_bytesOfBitsMSB (bits : List Bool) :
    (bytesOfBitsMSB bits).length = (bits.length + 7) / 8 := by
  induction bits using bytesOfBitsMSB.induct with
  | case1 => simp [bytesOfBitsMSB]
  | case2 b0 b1 b2 b3 b4 b5 b6 b7 rest ih =>
      simp only [bytesOfBitsMSB, List.length_cons, ih, List.length_cons]
      omega
  | case3 rest h1 h2 =>
      have hne : rest ≠ [] := fun h => h1 h
      have hpos : 0 < rest.length := List.length_pos.mpr hne
      have hshort : rest.length < 8 := by
        by_contra hge
        push_neg at hge
        rcases rest with _ | ⟨a0, _ | ⟨a1, _ | ⟨a2, _ | ⟨a3, _ | ⟨a4, _ | ⟨a5, _ | ⟨a6, _ |
          ⟨a7, t⟩⟩⟩⟩⟩⟩⟩⟩
        · exact h1 rfl
        · simp at hge
        · simp at hge
        · simp at hge
        · simp at hge
        · simp at hge
        · simp at hge
        · simp at hge
        · exact h2 a0 a1 a2 a3 a4 a5 a6 a7 t rfl
      have heq : bytesOfBitsMSB rest
          = [valMSB (rest ++ List.replicate (8 - rest.length) false)] := by
        rcases rest with _ | ⟨a0, _ | ⟨a1, _ | ⟨a2, _ | ⟨a3, _ | ⟨a4, _ | ⟨a5, _ | ⟨a6, _ |
          ⟨a7, t⟩⟩⟩⟩⟩⟩⟩⟩
        · exact absurd rfl h1
        · rfl
        · rfl
        · rfl
        · rfl
        · rfl
        · rfl
        · rfl
        · exact absurd rfl (h2 a0 a1 a2 a3 a4 a5 a6 a7 t)
      rw [heq]
      simp only [List.length_singleton]
      omega

/-- `bw_write_bit` never lets the bit count exceed the capacity. -/
theorem bwWriteBit_length_le (bw : BitW) (b : Bool)
    (h : bw.bits.length ≤ 8 * bw.cap) :
    (bwWriteBit bw b).bits.length ≤ 8 * bw.cap := by
  by_cases h1 : bw.bits.length < 8 * bw.cap
  · simp [bwWriteBit, h1]
    omega
  · simp [bwWriteBit, h1]
    exact h

/-- `bw_write_bit` keeps the capacity field. -/
theorem bwWriteBit_cap (bw : BitW) (b : Bool) : (bwWriteBit bw b).cap = bw.cap := by
  by_cases h1 : bw.bits.length < 8 * bw.cap
  · simp [bwWriteBit, h1]
  · simp [bwWriteBit, h1]

/-- Bit-count bound for a list of writes. -/
theorem bwWriteBits_length_le (bs : List Bool) :
    ∀ bw : BitW, bw.bits.length ≤ 8 * bw.cap →
      (bwWriteBits bw bs).bits.length ≤ 8 * (bwWriteBits bw bs).cap := by
  induction bs with
  | nil => intro bw h; simpa [bwWriteBits] using h
  | cons b bs ih =>
      intro bw h
      simp only [bwWriteBits, List.foldl_cons]
      have h1 := bwWriteBit_length_le bw b h
      have h2 := bwWriteBit_cap bw b
      have := ih (bwWriteBit bw b) (by rw [h2]; exact h1)
      simpa [bwWriteBits] using this

/-- Capacity is constant across a list of writes. -/
theorem bwWriteBits_cap (bs : List Bool) :
    ∀ bw : BitW, (bwWriteBits bw bs).cap = bw.cap := by
  induction bs with
  | nil => intro bw; rfl
  | cons b bs ih =>
      intro bw
      simp only [bwWriteBits, List.foldl_cons]
      rw [show List.foldl bwWriteBit (bwWriteBit bw b) bs = bwWriteBits (bwWriteBit bw b) bs
        from rfl, ih, bwWriteBit_cap]

/-- With room for all of them, written bits are simply appended. -/
theorem bwWriteBits_append_of_room (bs : List Bool) :
    ∀ bw : BitW, bw.bits.length + bs.length ≤ 8 * bw.cap →
      bwWriteBits bw bs = ⟨bw.cap, bw.bits ++ bs⟩ := by
  induction bs with
  | nil => intro bw h; simp [bwWriteBits]
  | cons b bs ih =>
      intro bw h
      simp only [bwWriteBits, List.foldl_cons]
      have hroom : bw.bits.length < 8 * bw.cap := by
        simp at h
        omega
      have hw : bwWriteBit bw b = ⟨bw.cap, bw.bits ++ [b]⟩ := by
        unfold bwWriteBit
        rw [if_pos hroom]
      rw [hw]
      have := ih ⟨bw.cap, bw.bits ++ [b]⟩ (by simp at h ⊢; omega)
      simp only [bwWriteBits] at this
      rw [this]
      simp

/-- Consecutive writes concatenate (capping included). -/
theorem bwWriteBits_bwWriteBits (bw : BitW) (xs ys : List Bool) :
    bwWriteBits (bwWriteBits bw xs) ys = bwWriteBits bw (xs ++ ys) := by
  simp [bwWriteBits, List.foldl_append]

/-- The predictor round-trip at any starting value below 256. -/
theorem undoPredGo_applyPredGo (b : List Nat) :
    ∀ prev : Nat, prev < 256 → (∀ x ∈ b, x < 256) →
      undoPredGo prev (applyPredGo prev b) = b := by
  induction b with
  | nil => intro prev _ _; rfl
  | cons x xs ih =>
      intro prev hprev hb
      have hx : x < 256 := hb x (by simp)
      simp only [applyPredGo, undoPredGo]
      have hhead : ((x % 256 + 256 - prev) % 256 % 256 + prev) % 256 = x := by omega
      rw [hhead, Nat.mod_eq_of_lt hx]
      exact congrArg (fun t => x :: t)
        (ih x hx (fun y hy => hb y (List.mem_cons_of_mem _ hy)))

/-- `bitsLSB` splits at any width boundary. -/
theorem bitsLSB_add (a : Nat) :
    ∀ (b v : Nat), bitsLSB (a + b) v = bitsLSB a v ++ bitsLSB b (v / 2 ^ a) := by
  induction a with
  | zero => intro b v; simp [bitsLSB]
  | succ a ih =>
      intro b v
      have hcomm : a + 1 + b = (a + b) + 1 := by omega
      rw [hcomm]
      simp only [bitsLSB, ih b (v / 2), List.cons_append]
      have : v / 2 / 2 ^ a = v / 2 ^ (a + 1) := by
        rw [Nat.div_div_eq_div_mul, pow_succ, Nat.mul_comm 2 (2 ^ a)]
      rw [this]

/-- `bitsLSB` yields exactly `w` bits. -/
theorem length_bitsLSB (w : Nat) : ∀ v, (bitsLSB w v).length = w := by
  induction w with
  | zero => intro v; rfl
  | succ w ih => intro v; simp [bitsLSB, ih]

/-- Packing 8 bits plus a 4-bit zero pad gives two bytes. -/
theorem bytesOfBitsLSB_len8_pad4 (l : List Bool) (hl : l.length = 8) :
    bytesOfBitsLSB (l ++ [false, false, false, false]) = [valLSB l, 0] := by
  rcases l with _ | ⟨x0, _ | ⟨x1, _ | ⟨x2, _ | ⟨x3, _ | ⟨x4, _ | ⟨x5, _ | ⟨x6, _ |
    ⟨x7, t⟩⟩⟩⟩⟩⟩⟩⟩
  · simp at hl
  · simp at hl
  · simp at hl
  · simp at hl
  · simp at hl
  · simp at hl
  · simp at hl
  · simp at hl
  · have ht : t = [] := by
      simp only [List.length_cons] at hl
      exact List.eq_nil_of_length_eq_zero (by omega)
    subst ht
    rfl

/-! ## Claims -/

/-- **C2** (code bug).  The round trip
`lzw_decompress (lzw_compress b) = b` fails: on `b = "abababab"` the
decompressor meets the KwKwK case (code 258 read while `next_code = 258`)
and, because `lzw_decompress` pushes `first_char` on **top** of the decode
stack (line 192) instead of below the reversed string, it emits
`first_char :: str(old)` = "aab" instead of `str(old) ++ [first_char]` =
"aba" — contradicting the code's own comment (line 187, "secuencia =
anterior + primer carácter de la anterior") and the spec's round-trip
property.  The dictionary entry itself is built correctly; only the
emitted block is wrong. -/
theorem c2_lzw_kwkwk_roundtrip_fails :
    lzw_compress [97, 98, 97, 98, 97, 98, 97, 98] = some [97, 32, 6, 0, 33, 16, 98, 0] ∧
    lzw_decompress [97, 32, 6, 0, 33, 16, 98, 0] = some [97, 98, 97, 98, 97, 97, 98, 98] ∧
    [97, 98, 97, 98, 97, 97, 98, 98] ≠ [97, 98, 97, 98, 97, 98, 97, 98] := by
  refine ⟨rfl, rfl, by decide⟩

/-- **C1** (code bug).  Chunked compress/decompress round trip fails for
the spec's own example (30 bytes "A"×10 ++ "B"×10 ++ "C"×10, chunk size
10, LZW): compression concatenates three 6-byte compressed blocks, but
`decompress_chunked` re-splits those 18 bytes at the raw chunk size 10
instead of using per-block compressed lengths, so the second slice starts
mid-block and decompression fails (here with an out-of-range code). -/
theorem c1_chunked_roundtrip_fails :
    compress_chunked CompAlg.lzw 10
        (List.replicate 10 65 ++ List.replicate 10 66 ++ List.replicate 10 67)
      = some [65, 0, 16, 1, 33, 16, 66, 0, 16, 1, 33, 16, 67, 0, 16, 1, 33, 16] ∧
    decompress_chunked CompAlg.lzw 10
        [65, 0, 16, 1, 33, 16, 66, 0, 16, 1, 33, 16, 67, 0, 16, 1, 33, 16]
      = none := by
  refine ⟨rfl, rfl⟩

/-- **C3** (counterexample).  A Huffman stream whose bitstream is
truncated in the middle of a root-to-leaf walk does **not** make
`hp_decompress_buffer` fail: the input below serializes a two-leaf tree
(symbols 65 and 0), declares an original length of 10, but provides only
5 code bits; the decoder pads the remaining five symbols with the node
where each walk stopped and returns output (here, ten bytes 65). -/
theorem c3_truncated_midwalk_returns_output :
    hpDecompress [80, 96, 0, 0, 0, 1, 79] = some (List.replicate 10 65) := by
  rfl

/-- **C3** (amended).  Truncation is detected only *before* symbol
decoding starts: whenever fewer than 32 bits remain after deserializing
the tree (so the tree itself or the 32-bit length field is cut short),
`hp_decompress_buffer` fails; but a stream truncated mid-walk still
returns output, as the counterexample above shows. -/
theorem c3_truncation_error_amended :
    (∀ input : List Nat, input ≠ [] →
      ((deserializeTree ((bitsOfBytesMSB input).length + 1)
        (bitsOfBytesMSB input)).2).length < 32 →
      hpDecompress input = none) ∧
    hpDecompress [80, 96, 0, 0, 0, 1, 79] = some (List.replicate 10 65) := by
  constructor
  · intro input h hshort
    cases hdes : deserializeTree ((bitsOfBytesMSB input).length + 1)
        (bitsOfBytesMSB input) with
    | mk t rest =>
      rw [hdes] at hshort
      dsimp only at hshort
      cases t with
      | null => simp only [hpDecompress, if_neg h, hdes]
      | node s f l r =>
          have hnone : readBitsMSB 32 rest = none :=
            readGoMSB_short 32 0 rest hshort
          simp only [hpDecompress, if_neg h, hdes, hnone]
  · rfl

/-- Witness for `c3_truncation_error_amended`: the one-byte stream `0x40`
starts an internal node whose left leaf's symbol byte is cut off. -/
theorem c3_truncation_error_amended_witness :
    (([64] : List Nat) ≠ [] ∧
      ((deserializeTree ((bitsOfBytesMSB [64]).length + 1)
        (bitsOfBytesMSB [64])).2).length < 32) ∧
    hpDecompress [64] = none :=
  ⟨⟨by decide, by decide⟩,
   c3_truncation_error_amended.1 [64] (by decide) (by decide)⟩

/-- **C5** (counterexample).  A block consisting of a single byte `0x41`
is "one repeated byte value", yet the Huffman codec does not round-trip
it: `hp_compress_buffer` allocates a `BitWriter` of only `3 * len = 3`
bytes, the 9-bit tree plus the 32-bit length need 41 bits, so the length
field is silently truncated at 24 bits and decompression fails. -/
theorem c5_one_byte_block_roundtrip_fails :
    hpCompress [65] = some [160, 128, 0] ∧
    (hpCompress [65]).bind hpDecompress = none ∧
    (hpCompress [65]).bind hpDecompress ≠ some [65] := by
  refine ⟨rfl, rfl, by decide⟩

/-- **C4** (confirmed).  Undoing the predictor after applying it returns
the original buffer: `apply_predictor` stores `byte[i] - byte[i-1]`
(mod 256, with `byte[-1] = 0`) and `undo_predictor` re-accumulates in the
same order; the `(1,1,1)`-shaped `apply_predictor_sub`/`undo_predictor_sub`
pair used by the chunk pipeline likewise round-trips. -/
theorem c4_predictor_roundtrip (b : List Nat) (hb : ∀ x ∈ b, x < 256) :
    undo_predictor (apply_predictor b) = b ∧
    undo_predictor_sub 1 1 1 (apply_predictor_sub 1 1 1 b) = b := by
  constructor
  · exact undoPredGo_applyPredGo b 0 (by norm_num) hb
  · cases b with
    | nil => rfl
    | cons x xs =>
        have hx : x < 256 := hb x (by simp)
        have hxm : x % 256 = x := Nat.mod_eq_of_lt hx
        simp [apply_predictor_sub, undo_predictor_sub, subRow, applySubCell, undoSubCell,
          List.range_succ, hxm]

/-- Witness for `c4_predictor_roundtrip`. -/
theorem c4_predictor_roundtrip_witness :
    (∀ x ∈ [0, 255, 17], x < 256) ∧
    undo_predictor (apply_predictor [0, 255, 17]) = [0, 255, 17] := by
  refine ⟨by decide, (c4_predictor_roundtrip [0, 255, 17] (by decide)).1⟩

/-- **C7** (confirmed).  `lzw_compress` rejects the empty input with an
error, and a single-byte input emits exactly one 12-bit literal code equal
to that byte (packed LSB-first into the two bytes `[v, 0]`). -/
theorem c7_lzw_empty_and_single_byte :
    lzw_compress [] = none ∧
    ∀ v : Nat, v < 256 →
      lzwCompressCodes v [] = [v] ∧ lzw_compress [v] = some [v, 0] := by
  refine ⟨rfl, ?_⟩
  intro v hv
  refine ⟨rfl, ?_⟩
  have hsplit : bitsLSB 12 v = bitsLSB 8 v ++ bitsLSB 4 (v / 256) := by
    have h := bitsLSB_add 8 4 v
    norm_num at h
    exact h
  have hv0 : v / 256 = 0 := Nat.div_eq_of_lt hv
  have hzero : bitsLSB 4 0 = [false, false, false, false] := rfl
  have hval : valLSB (bitsLSB 8 v) = v := by
    rw [valLSB_bitsLSB]
    norm_num
    omega
  have hbytes : bytesOfBitsLSB (bitsLSB 12 v) = [v, 0] := by
    rw [hsplit, hv0, hzero, bytesOfBitsLSB_len8_pad4 _ (length_bitsLSB 8 v), hval]
  simp only [lzw_compress, lzwCompressCodes]
  rw [show lzwCRun (lzwCInit v) [] = ([], lzwCInit v) from rfl]
  simpa using hbytes

/-- Witness for `c7_lzw_empty_and_single_byte`. -/
theorem c7_lzw_empty_and_single_byte_witness :
    (65 : Nat) < 256 ∧ lzw_compress [65] = some [65, 0] :=
  ⟨by decide, (c7_lzw_empty_and_single_byte.2 65 (by decide)).2⟩

/-- Capacity and bit-count bookkeeping for `serialize_tree`. -/
theorem serializeTree_cap (t : HTree) : ∀ bw, (serializeTree t bw).cap = bw.cap := by
  induction t with
  | null => intro bw; rfl
  | node s f l r ihl ihr =>
      intro bw
      cases l with
      | null =>
          cases r with
          | null => simp [serializeTree, bwWriteByte, bwWriteBits_cap, bwWriteBit_cap]
          | node s2 f2 l2 r2 =>
              simp [serializeTree, ihl, ihr, bwWriteBit_cap]
      | node s2 f2 l2 r2 =>
          simp [serializeTree, ihl, ihr, bwWriteBit_cap]

/-- `serialize_tree` keeps the bit count within capacity. -/
theorem serializeTree_length_le (t : HTree) :
    ∀ bw, bw.bits.length ≤ 8 * bw.cap →
      (serializeTree t bw).bits.length ≤ 8 * bw.cap := by
  induction t with
  | null => intro bw h; exact h
  | node s f l r ihl ihr =>
      intro bw h
      have hbit : (bwWriteBit bw false).bits.length ≤ 8 * bw.cap := bwWriteBit_length_le bw _ h
      have hbitt : (bwWriteBit bw true).bits.length ≤ 8 * bw.cap := bwWriteBit_length_le bw _ h
      cases l with
      | null =>
          cases r with
          | null =>
              show (bwWriteByte (bwWriteBit bw true) s).bits.length ≤ 8 * bw.cap
              unfold bwWriteByte
              have := bwWriteBits_length_le (bitsMSB 8 s) (bwWriteBit bw true)
                (by rw [bwWriteBit_cap]; exact hbitt)
              rw [bwWriteBits_cap, bwWriteBit_cap] at this
              exact this
          | node s2 f2 l2 r2 =>
              show (serializeTree _ (serializeTree _ (bwWriteBit bw false))).bits.length
                ≤ 8 * bw.cap
              have h1 := ihl (bwWriteBit bw false) (by rw [bwWriteBit_cap]; exact hbit)
              rw [bwWriteBit_cap] at h1
              have h2 := ihr (serializeTree HTree.null (bwWriteBit bw false))
                (by rw [serializeTree_cap, bwWriteBit_cap]; exact h1)
              rw [serializeTree_cap, bwWriteBit_cap] at h2
              exact h2
      | node s2 f2 l2 r2 =>
          show (serializeTree _ (serializeTree _ (bwWriteBit bw false))).bits.length
            ≤ 8 * bw.cap
          have h1 := ihl (bwWriteBit bw false) (by rw [bwWriteBit_cap]; exact hbit)
          rw [bwWriteBit_cap] at h1
          have h2 := ihr (serializeTree (HTree.node s2 f2 l2 r2) (bwWriteBit bw false))
            (by rw [serializeTree_cap, bwWriteBit_cap]; exact h1)
          rw [serializeTree_cap, bwWriteBit_cap] at h2
          exact h2

/-- The per-symbol encoding fold keeps the bit count within capacity and
the capacity constant. -/
theorem foldl_writes_invariant (g : Nat → List Bool) (l : List Nat) :
    ∀ bw : BitW, bw.bits.length ≤ 8 * bw.cap →
      (l.foldl (fun b d => bwWriteBits b (g d)) bw).bits.length ≤ 8 * bw.cap ∧
      (l.foldl (fun b d => bwWriteBits b (g d)) bw).cap = bw.cap := by
  induction l with
  | nil => intro bw h; exact ⟨h, rfl⟩
  | cons d ds ih =>
      intro bw h
      simp only [List.foldl_cons]
      have h1 := bwWriteBits_length_le (g d) bw h
      rw [bwWriteBits_cap] at h1
      have h2 := ih (bwWriteBits bw (g d)) (by rw [bwWriteBits_cap]; exact h1)
      rw [bwWriteBits_cap] at h2
      exact h2

/-- The whole `hp_compress_buffer` writer chain stays within the
`3 * len`-byte capacity, whatever tree, length field and code table are
fed to it. -/
theorem hp_writer_bound (L : Nat) (r : HTree) (lenbits : List Bool) (data : List Nat)
    (g : Nat → List Bool) :
    (bytesOfBitsMSB ((data.foldl (fun bw d => bwWriteBits bw (g d))
        (bwWriteBits (serializeTree r ⟨3 * L, []⟩) lenbits)).bits)).length ≤ 3 * L := by
  have h0 : (⟨3 * L, []⟩ : BitW).bits.length ≤ 8 * (⟨3 * L, []⟩ : BitW).cap := by simp
  have h1 := serializeTree_length_le r ⟨3 * L, []⟩ h0
  have hc1 : (serializeTree r ⟨3 * L, []⟩).cap = 3 * L := serializeTree_cap r _
  have h2 := bwWriteBits_length_le lenbits (serializeTree r ⟨3 * L, []⟩)
    (by rw [hc1]; simpa using h1)
  rw [bwWriteBits_cap, hc1] at h2
  have h3 := foldl_writes_invariant g data
    (bwWriteBits (serializeTree r ⟨3 * L, []⟩) lenbits)
    (by rw [bwWriteBits_cap, hc1]; exact h2)
  rw [bwWriteBits_cap, hc1] at h3
  rw [length_bytesOfBitsMSB]
  have := h3.1
  omega

/-- **C10** (confirmed).  `hp_compress_buffer` drives all output through a
`BitWriter` of fixed capacity `3 * len` bytes; once `bit_pos` reaches the
capacity, `bw_write_bit` silently drops the bit and the state is
unchanged; the function still succeeds and its output never exceeds
`3 * len` bytes — the overflow is never surfaced as an error. -/
theorem c10_hp_capacity_silent_truncation :
    (∀ (bw : BitW) (b : Bool), 8 * bw.cap ≤ bw.bits.length → bwWriteBit bw b = bw) ∧
    ∀ input : List Nat, input ≠ [] →
      (hpCompress input).isSome ∧
      ∀ o, hpCompress input = some o → o.length ≤ 3 * input.length := by
  constructor
  · intro bw b h
    have hnot : ¬ bw.bits.length < 8 * bw.cap := by omega
    simp [bwWriteBit, hnot]
  · intro input h
    simp only [hpCompress, if_neg h]
    refine ⟨by simp, ?_⟩
    intro o ho
    simp only [Option.some_inj] at ho
    subst ho
    apply hp_writer_bound

/-- Witness for `c10_hp_capacity_silent_truncation`. -/
theorem c10_hp_capacity_silent_truncation_witness :
    (8 * (⟨1, List.replicate 8 true⟩ : BitW).cap ≤ (⟨1, List.replicate 8 true⟩ : BitW).bits.length ∧
      bwWriteBit ⟨1, List.replicate 8 true⟩ false = ⟨1, List.replicate 8 true⟩) ∧
    (([5] : List Nat) ≠ [] ∧ (hpCompress [5]).isSome) := by
  refine ⟨⟨by decide, c10_hp_capacity_silent_truncation.1 _ false (by decide)⟩,
    by decide, (c10_hp_capacity_silent_truncation.2 [5] (by decide)).1⟩

/-- Insertion preserves the decompressor dictionary invariant. -/
theorem DInv_lzwDInsert (d : LzwD) (fc ic : Nat) (h : DInv d) :
    DInv (lzwDInsert d fc ic) ∧ d.nextCode ≤ (lzwDInsert d fc ic).nextCode ∧
    (d.nextCode = LZW_MAX_CODES →
      (lzwDInsert d fc ic).pref = d.pref ∧ (lzwDInsert d fc ic).suff = d.suff) := by
  obtain ⟨hbase, h256, hmax, hdom⟩ := h
  by_cases hfull : d.nextCode < LZW_MAX_CODES
  · have heq : lzwDInsert d fc ic =
        ⟨fun k => if k = d.nextCode then some d.oldCode else d.pref k,
         fun k => if k = d.nextCode then fc else d.suff k, d.nextCode + 1, ic⟩ := by
      simp [lzwDInsert, hfull]
    rw [heq]
    refine ⟨⟨?_, ?_, ?_, ?_⟩, ?_, ?_⟩
    · intro i hi
      have hne : i ≠ d.nextCode := by omega
      show (if i = d.nextCode then some d.oldCode else d.pref i) = none ∧
        (if i = d.nextCode then fc else d.suff i) = i
      rw [if_neg hne, if_neg hne]
      exact hbase i hi
    · show 256 ≤ d.nextCode + 1
      omega
    · show d.nextCode + 1 ≤ LZW_MAX_CODES
      omega
    · intro k p hk
      have hk2 : (if k = d.nextCode then some d.oldCode else d.pref k) = some p := hk
      show 256 ≤ k ∧ k < d.nextCode + 1
      by_cases hkn : k = d.nextCode
      · omega
      · rw [if_neg hkn] at hk2
        have := hdom k p hk2
        omega
    · show d.nextCode ≤ d.nextCode + 1
      omega
    · intro hmaxed
      exfalso
      omega
  · have heq : lzwDInsert d fc ic = ⟨d.pref, d.suff, d.nextCode, ic⟩ := by
      simp [lzwDInsert, hfull]
    rw [heq]
    exact ⟨⟨hbase, h256, hmax, hdom⟩, le_refl _, fun _ => ⟨rfl, rfl⟩⟩

/-- **C6** (confirmed).  LZW dictionary invariants on both sides: codes
0–255 pre-exist as single-byte entries (decompressor: prefix `-1`, suffix
`i`, never overwritten; compressor: trie entries only ever target codes
≥ 256), new codes are assigned monotonically starting at 256, never
reused, and existing entries are never changed; once `nextCode` reaches
4096 no further insertion happens while the step — and compression of any
non-empty input — still succeeds. -/
theorem c6_lzw_dictionary_invariants :
    (∀ b0 : Nat, CInv (lzwCInit b0)) ∧
    (∀ (s : LzwC) (c : Nat), CInv s →
      CInv (lzwCStep s c).1 ∧
      s.nextCode ≤ (lzwCStep s c).1.nextCode ∧
      (∀ a b cd, s.next a b = some cd → (lzwCStep s c).1.next a b = some cd) ∧
      (s.next s.code c = none → s.nextCode < LZW_MAX_CODES →
        (lzwCStep s c).1.next s.code c = some s.nextCode) ∧
      (s.nextCode = LZW_MAX_CODES →
        (lzwCStep s c).1.next = s.next ∧ (lzwCStep s c).1.nextCode = s.nextCode)) ∧
    (∀ input : List Nat, input ≠ [] → (lzw_compress input).isSome) ∧
    (∀ c0 : Nat, DInv (lzwDInit c0)) ∧
    (∀ (d : LzwD) (c : Nat), DInv d →
      (lzwDStep d c).elim True (fun p =>
        DInv p.1 ∧ d.nextCode ≤ p.1.nextCode ∧
        (d.nextCode = LZW_MAX_CODES → p.1.pref = d.pref ∧ p.1.suff = d.suff))) := by
  refine ⟨?_, ?_, ?_, ?_, ?_⟩
  · intro b0
    refine ⟨le_refl _, ?_, fun a b c hc => Option.noConfusion hc,
      fun a b a2 b2 c hc _ => Option.noConfusion hc⟩
    show (256 : Nat) ≤ LZW_MAX_CODES
    decide
  · intro s c hs
    obtain ⟨h256, hmax, hdom, hinj⟩ := hs
    cases hlook : s.next s.code c with
    | some nc =>
        have hstep : lzwCStep s c = (⟨s.next, s.nextCode, nc⟩, none) := by
          simp [lzwCStep, hlook]
        rw [hstep]
        exact ⟨⟨h256, hmax, hdom, hinj⟩, le_refl _, fun a b cd h => h,
          fun hnone _ => Option.noConfusion hnone,
          fun _ => ⟨rfl, rfl⟩⟩
    | none =>
        by_cases hfull : s.nextCode < LZW_MAX_CODES
        · have hstep : lzwCStep s c =
              (⟨fun a b => if a = s.code ∧ b = c then some s.nextCode else s.next a b,
                s.nextCode + 1, c⟩, some s.code) := by
            simp [lzwCStep, hlook, hfull]
          rw [hstep]
          refine ⟨⟨?_, ?_, ?_, ?_⟩, ?_, ?_, ?_, ?_⟩
          · show 256 ≤ s.nextCode + 1
            omega
          · show s.nextCode + 1 ≤ LZW_MAX_CODES
            omega
          · intro a b cd hcd
            have hcd2 : (if a = s.code ∧ b = c then some s.nextCode else s.next a b)
                = some cd := hcd
            show 256 ≤ cd ∧ cd < s.nextCode + 1
            by_cases hab : a = s.code ∧ b = c
            · rw [if_pos hab] at hcd2
              have : s.nextCode = cd := Option.some_inj.mp hcd2
              omega
            · rw [if_neg hab] at hcd2
              have := hdom a b cd hcd2
              omega
          · intro a b a2 b2 cd hc1 hc2
            have h1 : (if a = s.code ∧ b = c then some s.nextCode else s.next a b)
                = some cd := hc1
            have h2 : (if a2 = s.code ∧ b2 = c then some s.nextCode else s.next a2 b2)
                = some cd := hc2
            by_cases hab : a = s.code ∧ b = c
            · by_cases hab2 : a2 = s.code ∧ b2 = c
              · exact ⟨hab.1.trans hab2.1.symm, hab.2.trans hab2.2.symm⟩
              · rw [if_pos hab] at h1
                rw [if_neg hab2] at h2
                have hle := hdom a2 b2 cd h2
                have : s.nextCode = cd := Option.some_inj.mp h1
                omega
            · by_cases hab2 : a2 = s.code ∧ b2 = c
              · rw [if_neg hab] at h1
                rw [if_pos hab2] at h2
                have hle := hdom a b cd h1
                have : s.nextCode = cd := Option.some_inj.mp h2
                omega
              · rw [if_neg hab] at h1
                rw [if_neg hab2] at h2
                exact hinj a b a2 b2 cd h1 h2
          · show s.nextCode ≤ s.nextCode + 1
            omega
          · intro a b cd hcd
            show (if a = s.code ∧ b = c then some s.nextCode else s.next a b) = some cd
            by_cases hab : a = s.code ∧ b = c
            · obtain ⟨ha, hb⟩ := hab
              subst ha
              subst hb
              rw [hlook] at hcd
              exact Option.noConfusion hcd
            · rw [if_neg hab]
              exact hcd
          · intro _ _
            show (if s.code = s.code ∧ c = c then some s.nextCode else s.next s.code c)
              = some s.nextCode
            rw [if_pos ⟨rfl, rfl⟩]
          · intro hmaxed
            exfalso
            omega
        · have hstep : lzwCStep s c = (⟨s.next, s.nextCode, c⟩, some s.code) := by
            simp [lzwCStep, hlook, hfull]
          rw [hstep]
          exact ⟨⟨h256, hmax, hdom, hinj⟩, le_refl _, fun a b cd h => h,
            fun _ hlt => absurd hlt hfull, fun _ => ⟨rfl, rfl⟩⟩
  · intro input h
    cases input with
    | nil => exact absurd rfl h
    | cons b0 rest => simp [lzw_compress]
  · intro c0
    refine ⟨fun i hi => ⟨rfl, Nat.mod_eq_of_lt hi⟩, le_refl _, ?_,
      fun k p hk => Option.noConfusion hk⟩
    show (256 : Nat) ≤ LZW_MAX_CODES
    decide
  · intro d c hd
    unfold lzwDStep
    by_cases h1 : c < d.nextCode
    · simp only [if_pos h1, Option.elim]
      exact DInv_lzwDInsert d
        ((chainStack d.pref d.suff LZW_MAX_CODES c).getLastD 0) c hd
    · simp only [if_neg h1]
      by_cases h2 : c = d.nextCode
      · simp only [if_pos h2]
        by_cases h3 : chainStack d.pref d.suff LZW_MAX_CODES d.oldCode = []
        · simp only [if_pos h3, Option.elim]
        · simp only [if_neg h3, Option.elim]
          exact DInv_lzwDInsert d _ c hd
      · simp only [if_neg h2, Option.elim]

/-- Witness for `c6_lzw_dictionary_invariants`. -/
theorem c6_lzw_dictionary_invariants_witness :
    CInv (lzwCInit 0) ∧ CInv (lzwCStep (lzwCInit 0) 7).1 ∧
    (lzw_compress [1]).isSome ∧ DInv (lzwDInit 5) ∧
    ((lzwDStep (lzwDInit 5) 5).elim True (fun p =>
      DInv p.1 ∧ (lzwDInit 5).nextCode ≤ p.1.nextCode ∧
      ((lzwDInit 5).nextCode = LZW_MAX_CODES →
        p.1.pref = (lzwDInit 5).pref ∧ p.1.suff = (lzwDInit 5).suff))) :=
  ⟨c6_lzw_dictionary_invariants.1 0,
   (c6_lzw_dictionary_invariants.2.1 (lzwCInit 0) 7 (c6_lzw_dictionary_invariants.1 0)).1,
   c6_lzw_dictionary_invariants.2.2.1 [1] (by decide),
   c6_lzw_dictionary_invariants.2.2.2.1 5,
   c6_lzw_dictionary_invariants.2.2.2.2 (lzwDInit 5) 5
     (c6_lzw_dictionary_invariants.2.2.2.1 5)⟩

/-- After executing the tasks listed in `order`, a slot holds its own
block's compressed bytes exactly when its index was executed. -/
theorem execTasks_slots (alg : CompAlg) (blocks : List (List Nat)) :
    ∀ (order : List Nat) (slots : Nat → Option (List Nat)) (j : Nat),
      execTasks alg blocks order slots j
        = if j ∈ order then compressWorker alg (blocks.getD j []) else slots j := by
  intro order
  induction order with
  | nil => intro slots j; simp [execTasks]
  | cons i rest ih =>
      intro slots j
      simp only [execTasks]
      rw [ih]
      by_cases hj1 : j ∈ rest
      · simp [hj1, List.mem_cons]
      · by_cases hj2 : j = i
        · subst hj2
          simp [hj1, List.mem_cons]
        · simp [hj1, hj2, List.mem_cons]

/-- `mapM` over a mapped list (for the `Option` monad). -/
theorem mapM_map_option {α β γ : Type} (f : α → β) (g : β → Option γ) :
    ∀ l : List α, (l.map f).mapM g = l.mapM (fun a => g (f a)) := by
  intro l
  induction l with
  | nil => rfl
  | cons a t ih => rw [List.map_cons, List.mapM_cons, List.mapM_cons, ih]

/-- `mapM` respects pointwise agreement (for the `Option` monad). -/
theorem mapM_congr_option {α γ : Type} (f g : α → Option γ) :
    ∀ l : List α, (∀ x ∈ l, f x = g x) → l.mapM f = l.mapM g := by
  intro l
  induction l with
  | nil => intro _; rfl
  | cons a t ih =>
      intro h
      simp only [List.mapM_cons, h a (by simp)]
      rw [ih (fun x hx => h x (List.mem_cons_of_mem _ hx))]

/-- Indexed `mapM` over the range equals `mapM` over the list itself. -/
theorem mapM_range_getD {γ : Type} (g : List Nat → Option γ) :
    ∀ blocks : List (List Nat),
      (List.range blocks.length).mapM (fun i => g (blocks.getD i []))
        = blocks.mapM g := by
  intro blocks
  induction blocks with
  | nil => rfl
  | cons b bs ih =>
      simp only [List.length_cons, List.range_succ_eq_map, List.mapM_cons]
      rw [mapM_map_option]
      simp only [List.getD_cons_zero, List.getD_cons_succ]
      rw [ih]

/-- **C8** (confirmed).  Whatever order the worker pool completes the
chunk tasks in (any permutation of the block indices), each result is
written into the slot of its own block id, so the assembled payload is
the index-order concatenation of compressing each block independently —
exactly `compress_chunked_parallel`. -/
theorem c8_parallel_index_order (alg : CompAlg) (blocks : List (List Nat))
    (order : List Nat) (hperm : order.Perm (List.range blocks.length)) :
    payloadInOrder alg blocks order
      = (blocks.mapM (compressWorker alg)).map List.flatten ∧
    ∀ cs input, compress_chunked_parallel alg cs input
      = ((chunksOf cs input).mapM (compressWorker alg)).map List.flatten := by
  constructor
  · unfold payloadInOrder
    have hmap : (List.range blocks.length).mapM
        (execTasks alg blocks order (fun _ => none))
        = (List.range blocks.length).mapM
          (fun i => compressWorker alg (blocks.getD i [])) := by
      apply mapM_congr_option
      intro j hj
      rw [execTasks_slots]
      rw [if_pos (hperm.mem_iff.mpr hj)]
    rw [hmap, mapM_range_getD]
  · intro cs input
    rfl

/-- Witness for `c8_parallel_index_order`. -/
theorem c8_parallel_index_order_witness :
    (([1, 0] : List Nat).Perm (List.range 2)) ∧
    payloadInOrder CompAlg.lzw [[1], [2]] [1, 0]
      = (([[1], [2]] : List (List Nat)).mapM (compressWorker CompAlg.lzw)).map
          List.flatten :=
  ⟨by decide, (c8_parallel_index_order CompAlg.lzw [[1], [2]] [1, 0] (by decide)).1⟩

/-- Every pool step preserves the safety invariant. -/
theorem poolStep_preserves (s s2 : PoolSt) (hstep : PoolStep s s2) (hinv : PoolInv s) :
    PoolInv s2 := by
  obtain ⟨hw, hperm, hcount, hstop0, hall⟩ := hinv
  cases hstep with
  | submit t hns =>
      unfold PoolInv
      dsimp only
      refine ⟨hw, ?_, hcount, fun _ => hstop0 hns, ?_⟩
      · have h1 : (s.executed ++ s.running ++ (s.queue ++ [t]))
            = (s.executed ++ s.running ++ s.queue) ++ [t] := by
          simp [List.append_assoc]
        rw [h1]
        exact hperm.append_right [t]
      · intro hx
        have h0 : s.exited = 0 := hstop0 hns
        exfalso
        omega
  | dequeue t rest hq hidle =>
      unfold PoolInv
      dsimp only
      refine ⟨hw, ?_, ?_, hstop0, ?_⟩
      · show ((s.executed ++ (t :: s.running) ++ rest)).Perm s.submitted
        have hperm2 : ((s.executed ++ (s.running ++ (t :: rest)))).Perm s.submitted := by
          have h0 := hperm
          rw [hq] at h0
          simpa [List.append_assoc] using h0
        have h2 : ((t :: s.running) ++ rest).Perm (s.running ++ (t :: rest)) := by
          simp only [List.cons_append]
          exact List.perm_middle.symm
        simp only [List.append_assoc]
        exact (List.Perm.append_left s.executed h2).trans hperm2
      · simp only [List.length_cons]
        omega
      · intro hx
        exfalso
        omega
  | finish t hmem =>
      unfold PoolInv
      dsimp only
      refine ⟨hw, ?_, ?_, hstop0, ?_⟩
      · show (((s.executed ++ [t]) ++ s.running.erase t ++ s.queue)).Perm s.submitted
        have hperm2 : ((s.executed ++ (s.running ++ s.queue))).Perm s.submitted := by
          simpa [List.append_assoc] using hperm
        have h2 : ([t] ++ (s.running.erase t ++ s.queue)).Perm (s.running ++ s.queue) := by
          have hpc : (t :: s.running.erase t).Perm s.running :=
            (List.perm_cons_erase hmem).symm
          simpa using hpc.append_right s.queue
        simp only [List.append_assoc]
        exact (List.Perm.append_left s.executed (by simpa using h2)).trans hperm2
      · have := List.length_erase_of_mem hmem
        omega
      · intro hx
        obtain ⟨hq, hr⟩ := hall hx
        exact absurd (hr ▸ hmem) (List.not_mem_nil t)
  | setStop =>
      unfold PoolInv
      dsimp only
      refine ⟨hw, hperm, hcount, ?_, hall⟩
      intro hfalse
      cases hfalse
  | exitWorker hstop hq hidle =>
      unfold PoolInv
      dsimp only
      refine ⟨hw, hperm, by omega, ?_, ?_⟩
      · intro hfalse
        rw [hstop] at hfalse
        cases hfalse
      · intro hx
        refine ⟨hq, ?_⟩
        have : s.running.length = 0 := by omega
        exact List.eq_nil_of_length_eq_zero this

/-- **C9** (confirmed).  A worker exits its loop only when the stop flag
is set and the queue is empty (first conjunct: the only step that
increments `exited` carries those two guards); consequently, along any
interleaving from a fresh pool, the accepted submissions always equal the
executed, running and queued tasks together, and once every worker has
exited — which is what `tp_destroy`'s join loop waits for before freeing
resources — the executed tasks are exactly the submitted ones: no task is
silently dropped. -/
theorem c9_pool_no_task_dropped :
    (∀ s s2 : PoolSt, PoolStep s s2 → s2.exited = s.exited + 1 →
      s.stop = true ∧ s.queue = []) ∧
    ∀ (n : Nat) (s : PoolSt), PoolReach (poolInit n) s →
      PoolInv s ∧ (s.exited = s.workers → s.executed.Perm s.submitted) := by
  constructor
  · intro s s2 hstep hx
    cases hstep with
    | submit t hns =>
        dsimp only at hx
        exact absurd hx (by omega)
    | dequeue t rest hq hidle =>
        dsimp only at hx
        exact absurd hx (by omega)
    | finish t hmem =>
        dsimp only at hx
        exact absurd hx (by omega)
    | setStop =>
        dsimp only at hx
        exact absurd hx (by omega)
    | exitWorker hstop hq hidle => exact ⟨hstop, hq⟩
  · intro n s hreach
    have hinv : PoolInv s := by
      induction hreach with
      | refl =>
          refine ⟨?_, by simp [poolInit], by simp [poolInit], fun _ => rfl, fun _ => ⟨rfl, rfl⟩⟩
          by_cases hn : n = 0
          · simp [poolInit, hn]
          · simp [poolInit, hn]
            omega
      | tail hsteps hstep ih => exact poolStep_preserves _ _ hstep ih
    refine ⟨hinv, ?_⟩
    intro hx
    obtain ⟨hw, hperm, hcount, hstop0, hall⟩ := hinv
    obtain ⟨hq, hr⟩ := hall hx
    rw [hq, hr] at hperm
    simpa using hperm

/-- Witness for `c9_pool_no_task_dropped`: a one-worker pool accepts task
7, runs it, is stopped and joined; the executed list matches the
submitted list. -/
theorem c9_pool_no_task_dropped_witness :
    PoolReach (poolInit 1) ⟨[], [], true, 1, 1, [7], [7]⟩ ∧
    (([7] : List Nat).Perm [7]) := by
  have htrace : PoolReach (poolInit 1) ⟨[], [], true, 1, 1, [7], [7]⟩ := by
    refine Relation.ReflTransGen.head (PoolStep.submit (poolInit 1) 7 rfl) ?_
    refine Relation.ReflTransGen.head
      (PoolStep.dequeue ⟨[7], [], false, 0, 1, [7], []⟩ 7 [] rfl (by decide)) ?_
    refine Relation.ReflTransGen.head
      (PoolStep.finish ⟨[], [7], false, 0, 1, [7], []⟩ 7 (by decide)) ?_
    refine Relation.ReflTransGen.head
      (PoolStep.setStop ⟨[], [], false, 0, 1, [7], [7]⟩) ?_
    refine Relation.ReflTransGen.head
      (PoolStep.exitWorker ⟨[], [], true, 0, 1, [7], [7]⟩ rfl rfl (by decide)) ?_
    exact Relation.ReflTransGen.refl
  exact ⟨htrace,
    (c9_pool_no_task_dropped.2 1 ⟨[], [], true, 1, 1, [7], [7]⟩ htrace).2 rfl⟩

/-- `bitsMSB` yields exactly `w` bits. -/
theorem length_bitsMSB (w : Nat) : ∀ v, (bitsMSB w v).length = w := by
  induction w with
  | zero => intro v; rfl
  | succ w ih => intro v; simp [bitsMSB, ih]

/-- `filterMap` over a range with empty support. -/
theorem filterMap_range_none {α : Type} (f : Nat → Option α) :
    ∀ n : Nat, (∀ i, i < n → f i = none) → (List.range n).filterMap f = [] := by
  intro n
  induction n with
  | zero => intro _; rfl
  | succ n ih =>
      intro h
      rw [List.range_succ, List.filterMap_append]
      rw [ih (fun i hi => h i (by omega))]
      simp [h n (by omega)]

/-- `filterMap` over a range whose support is a single index. -/
theorem filterMap_range_one {α : Type} (f : Nat → Option α) (a : Nat) (x : α) :
    ∀ n : Nat, a < n → (∀ i, i < n → f i = if i = a then some x else none) →
      (List.range n).filterMap f = [x] := by
  intro n
  induction n with
  | zero => intro h _; omega
  | succ n ih =>
      intro ha h
      rw [List.range_succ, List.filterMap_append]
      by_cases han : a = n
      · rw [filterMap_range_none f n (fun i hi => by
          rw [h i (by omega)]
          exact if_neg (by omega))]
        have hfn : f n = some x := by
          rw [h n (by omega)]
          rw [if_pos han.symm]
        simp [hfn]
      · rw [ih (by omega) (fun i hi => h i (by omega))]
        have hn : f n = none := by rw [h n (by omega), if_neg (fun hna => han hna.symm)]
        simp [hn]

/-- `filterMap` over a range whose support is exactly two indices. -/
theorem filterMap_range_pair {α : Type} (f : Nat → Option α) (a b : Nat) (x y : α) :
    ∀ n : Nat, a < b → b < n →
      (∀ i, i < n → f i = if i = a then some x else if i = b then some y else none) →
      (List.range n).filterMap f = [x, y] := by
  intro n
  induction n with
  | zero => intro _ h _; omega
  | succ n ih =>
      intro hab hb h
      rw [List.range_succ, List.filterMap_append]
      by_cases hbn : b = n
      · rw [filterMap_range_one f a x n (by omega) (fun i hi => by
          rw [h i (by omega)]
          by_cases hia : i = a
          · simp [hia]
          · simp [hia, show i ≠ b from by omega])]
        have hfb : f n = some y := by
          rw [h n (by omega), if_neg (by omega), if_pos hbn.symm]
        simp [hfb]
      · rw [ih hab (by omega) (fun i hi => h i (by omega))]
        have hn : f n = none := by
          rw [h n (by omega), if_neg (by omega), if_neg (fun hnb => hbn hnb.symm)]
        simp [hn]

/-- The predictor turns a repeated tail into zeros. -/
theorem applyPredGo_replicate (v : Nat) (hv : v < 256) :
    ∀ m, applyPredGo v (List.replicate m v) = List.replicate m 0 := by
  intro m
  induction m with
  | zero => rfl
  | succ m ih =>
      simp only [List.replicate_succ, applyPredGo]
      have h1 : (v % 256 + 256 - v) % 256 = 0 := by omega
      have h2 : v % 256 = v := Nat.mod_eq_of_lt hv
      rw [h1, h2, ih]

/-- `apply_predictor` on a repeated-byte block. -/
theorem apply_predictor_replicate (v k : Nat) (hv : v < 256) (hk : 1 ≤ k) :
    apply_predictor (List.replicate k v) = v :: List.replicate (k - 1) 0 := by
  cases k with
  | zero => omega
  | succ m =>
      simp only [List.replicate_succ, apply_predictor, applyPredGo]
      have h1 : (v % 256 + 256 - 0) % 256 = v := by omega
      have h2 : v % 256 = v := Nat.mod_eq_of_lt hv
      rw [h1, h2, applyPredGo_replicate v hv]
      simp

/-- Undoing the predictor on `v :: 0…0` accumulates back to `v…v`. -/
theorem undoPredGo_replicate_zero (v : Nat) (hv : v < 256) :
    ∀ m, undoPredGo v (List.replicate m 0) = List.replicate m v := by
  intro m
  induction m with
  | zero => rfl
  | succ m ih =>
      simp only [List.replicate_succ, undoPredGo]
      have h1 : (0 % 256 + v) % 256 = v := by omega
      rw [h1, ih]

/-- `undo_predictor` inverts the predictor's image of a repeated block. -/
theorem undo_predictor_repeated (v m : Nat) (hv : v < 256) :
    undo_predictor (v :: List.replicate m 0) = List.replicate (m + 1) v := by
  simp only [undo_predictor, undoPredGo]
  have h1 : (v % 256 + 0) % 256 = v := by omega
  rw [h1, undoPredGo_replicate_zero v hv]
  simp [List.replicate_succ]

/-- Occurrence counts in the predictor image of a nonzero repeated block. -/
theorem count_repeated (v m i : Nat) (hv0 : v ≠ 0) :
    (v :: List.replicate m 0).count i = if i = 0 then m else if i = v then 1 else 0 := by
  simp only [List.count_cons, List.count_replicate, beq_iff_eq]
  split_ifs <;> omega

/-- Deserializing a leaf: flag bit 1 plus 8 symbol bits. -/
theorem deserializeTree_leaf (f sym : Nat) (rest : List Bool) (hsym : sym < 256) :
    deserializeTree (f + 1) (true :: (bitsMSB 8 sym ++ rest))
      = (HTree.node sym 0 .null .null, rest) := by
  have h8 : sym < 2 ^ 8 := by norm_num; omega
  simp [deserializeTree, readBitsMSB_bitsMSB 8 sym rest h8]

/-- Deserializing the two-leaf tree produced for a nonzero repeated
block: internal node, leaf `v`, leaf 0. -/
theorem deserializeTree_pair (f v : Nat) (rest : List Bool) (hv : v < 256) :
    deserializeTree (f + 3)
        (false :: (true :: (bitsMSB 8 v ++ (true :: (bitsMSB 8 0 ++ rest)))))
      = (HTree.node 0 0 (HTree.node v 0 .null .null) (HTree.node 0 0 .null .null),
         rest) := by
  have hstep : deserializeTree (f + 3)
      (false :: (true :: (bitsMSB 8 v ++ (true :: (bitsMSB 8 0 ++ rest)))))
      = (match deserializeTree (f + 2) (true :: (bitsMSB 8 v ++ (true :: (bitsMSB 8 0 ++ rest)))) with
         | (l, r1) =>
             match deserializeTree (f + 2) r1 with
             | (r, r2) => (HTree.node 0 0 l r, r2)) := rfl
  rw [hstep]
  rw [show f + 2 = (f + 1) + 1 from rfl]
  rw [deserializeTree_leaf (f + 1) v _ hv]
  dsimp only
  rw [deserializeTree_leaf (f + 1) 0 rest (by norm_num)]

/-- One walk step on the deserialized two-leaf tree. -/
theorem hpWalk_pair (p q sv fv sw fw : Nat) (b : Bool) (bits : List Bool) :
    hpWalk (HTree.node p q (HTree.node sv fv .null .null)
        (HTree.node sw fw .null .null)) (b :: bits)
      = some ((if b then sw else sv), bits) := by
  cases b
  · simp [hpWalk]
  · simp [hpWalk]

/-- Walking the deserialized two-leaf tree with a `true` prefix yields
the zero symbol and consumes one bit per symbol. -/
theorem hpDecodeSyms_trues (v : Nat) :
    ∀ (m : Nat) (rest : List Bool),
      hpDecodeSyms
        (HTree.node 0 0 (HTree.node v 0 .null .null) (HTree.node 0 0 .null .null)) m
        (List.replicate m true ++ rest)
      = some (List.replicate m 0, rest) := by
  intro m
  induction m with
  | zero => intro rest; simp [hpDecodeSyms]
  | succ m ih =>
      intro rest
      simp only [List.replicate_succ, List.cons_append, hpDecodeSyms]
      rw [hpWalk_pair]
      simp only [if_pos rfl]
      rw [ih rest]
      simp [List.replicate_succ]

/-- Decoding any number of symbols against a single-leaf tree consumes no
bits and repeats the leaf symbol. -/
theorem hpDecodeSyms_leaf :
    ∀ (n : Nat) (bits : List Bool),
      hpDecodeSyms (HTree.node 0 0 .null .null) n bits
        = some (List.replicate n 0, bits) := by
  intro n
  induction n with
  | zero => intro bits; simp [hpDecodeSyms]
  | succ n ih =>
      intro bits
      simp only [hpDecodeSyms, hpWalk]
      rw [ih bits]
      simp [List.replicate_succ]

/-- Serializing a leaf writes flag 1 plus its 8-bit symbol. -/
theorem serializeTree_leaf_eq (s f : Nat) (bw : BitW) :
    serializeTree (HTree.node s f .null .null) bw
      = bwWriteBits bw (true :: bitsMSB 8 s) := by
  have h1 : serializeTree (HTree.node s f .null .null) bw
      = bwWriteByte (bwWriteBit bw true) s := rfl
  have h2 : bwWriteBit bw true = bwWriteBits bw [true] := rfl
  rw [h1, bwWriteByte, h2, bwWriteBits_bwWriteBits]
  rfl

/-- Serializing an internal node with two leaf children. -/
theorem serializeTree_node2_eq (p q sv fv sw fw : Nat) (bw : BitW) :
    serializeTree
        (HTree.node p q (HTree.node sv fv .null .null) (HTree.node sw fw .null .null)) bw
      = bwWriteBits bw
          (false :: ((true :: bitsMSB 8 sv) ++ (true :: bitsMSB 8 sw))) := by
  have h1 : serializeTree
      (HTree.node p q (HTree.node sv fv .null .null) (HTree.node sw fw .null .null)) bw
      = serializeTree (HTree.node sw fw .null .null)
          (serializeTree (HTree.node sv fv .null .null) (bwWriteBit bw false)) := rfl
  have h2 : bwWriteBit bw false = bwWriteBits bw [false] := rfl
  rw [h1, serializeTree_leaf_eq, h2, serializeTree_leaf_eq,
    bwWriteBits_bwWriteBits, bwWriteBits_bwWriteBits]
  rfl

/-- The per-byte encoding fold is one big bit-write. -/
theorem foldl_writes_concat (g : Nat → List Bool) :
    ∀ (l : List Nat) (bw : BitW),
      l.foldl (fun b d => bwWriteBits b (g d)) bw
        = bwWriteBits bw ((l.map g).flatten) := by
  intro l
  induction l with
  | nil => intro bw; rfl
  | cons d t ih =>
      intro bw
      simp only [List.foldl_cons, List.map_cons, List.flatten_cons]
      rw [ih, bwWriteBits_bwWriteBits]

/-- Unfolding `hp_decompress_buffer` once the deserialized tree, the
stored length and the decoded symbols are known. -/
theorem hpDecompress_eq_of (input : List Nat) (hne : input ≠ [])
    (s f : Nat) (l r : HTree) (rest : List Bool) (n : Nat) (r2 : List Bool)
    (syms : List Nat) (r3 : List Bool)
    (hdes : deserializeTree ((bitsOfBytesMSB input).length + 1) (bitsOfBytesMSB input)
      = (HTree.node s f l r, rest))
    (hread : readBitsMSB 32 rest = some (n, r2))
    (hdecode : hpDecodeSyms (HTree.node s f l r) n r2 = some (syms, r3)) :
    hpDecompress input = some (undo_predictor syms) := by
  simp only [hpDecompress, if_neg hne, hdes, hread, hdecode]

/-- Flattening `m` copies of a singleton list. -/
theorem flatten_replicate_singleton {α : Type} (b : α) :
    ∀ m, (List.replicate m [b]).flatten = List.replicate m b := by
  intro m
  induction m with
  | zero => rfl
  | succ m ih => simp [List.replicate_succ, ih]

/-- **C5** (amended).  For every block of `k ≥ 3` copies of a byte `v`
(with `k` below `2^32`, the width of the stored length field), the
Huffman codec round-trips: the predictor turns the block into `v`
followed by zeros, the tree degenerates to a single leaf (empty code)
when `v = 0` and to a two-leaf tree otherwise, and decoding returns the
original block.  (Blocks of length 1 — and length 2 with `v ≠ 0` — fail
instead, because the `3·len`-byte writer capacity truncates the header;
see the counterexample.) -/
theorem c5_repeated_block_roundtrip (v k : Nat) (hv : v < 256) (hk : 3 ≤ k)
    (hk32 : k < 2 ^ 32) :
    (hpCompress (List.replicate k v)).bind hpDecompress
      = some (List.replicate k v) := by
  obtain ⟨m, rfl⟩ : ∃ m, k = m + 1 := ⟨k - 1, by omega⟩
  have hm : 2 ≤ m := by omega
  have hne : List.replicate (m + 1) v ≠ [] := by
    simp [List.replicate_succ]
  have hdata : apply_predictor (List.replicate (m + 1) v) = v :: List.replicate m 0 := by
    have h := apply_predictor_replicate v (m + 1) hv (by omega)
    simpa using h
  by_cases hv0 : v = 0
  · -- all-zero block: single-leaf tree, empty code for the sole symbol
    subst hv0
    have hdata0 : apply_predictor (List.replicate (m + 1) 0)
        = List.replicate (m + 1) 0 := by
      rw [hdata]
      simp [List.replicate_succ]
    have hcnt : ∀ i, (List.replicate (m + 1) 0).count i
        = if i = 0 then m + 1 else 0 := by
      intro i
      simp only [List.count_replicate, beq_iff_eq]
      split_ifs <;> omega
    have hnodes : ((List.range 256).filterMap fun i =>
        if (List.replicate (m + 1) 0).count i ≠ 0 then
          some (HTree.node i ((List.replicate (m + 1) 0).count i) HTree.null HTree.null)
        else none)
        = [HTree.node 0 (m + 1) HTree.null HTree.null] := by
      apply filterMap_range_one _ 0 _ 256 (by omega)
      intro i hi
      rw [hcnt i]
      by_cases hi0 : i = 0
      · subst hi0
        simp
      · simp [hi0]
    have hcomp : hpCompress (List.replicate (m + 1) 0)
        = some (bytesOfBitsMSB
            ((true :: bitsMSB 8 0) ++ bitsMSB 32 (m + 1))) := by
      simp only [hpCompress, if_neg hne]
      rw [hdata0, hnodes]
      simp only [List.length_cons, List.length_nil, List.length_replicate]
      rw [show huffLoop (0 + 1) [HTree.node 0 (m + 1) HTree.null HTree.null]
          = [HTree.node 0 (m + 1) HTree.null HTree.null] from rfl]
      simp only [List.length_singleton, if_pos rfl, if_true, List.getD_cons_zero]
      rw [serializeTree_leaf_eq]
      rw [foldl_writes_concat]
      have hcodes : ((List.replicate (m + 1) 0).map fun d =>
          ((buildCodes (HTree.node 0 (m + 1) HTree.null HTree.null) []
            fun _ => none) d).getD []).flatten = [] := by
        have htbl : (buildCodes (HTree.node 0 (m + 1) HTree.null HTree.null) []
            fun _ => none) 0 = some [] := by
          simp [buildCodes]
        simp [htbl, List.map_replicate, flatten_replicate_singleton]
      rw [hcodes]
      rw [bwWriteBits_bwWriteBits, bwWriteBits_bwWriteBits]
      rw [bwWriteBits_append_of_room]
      · simp
      · dsimp only
        simp only [List.length_nil, List.length_append, List.length_cons,
          length_bitsMSB, List.length_replicate]
        omega
    have hlen : ((true :: bitsMSB 8 0) ++ bitsMSB 32 (m + 1)).length = 41 := by
      simp [length_bitsMSB]
    have hbne : bytesOfBitsMSB ((true :: bitsMSB 8 0) ++ bitsMSB 32 (m + 1)) ≠ [] := by
      apply List.ne_nil_of_length_pos
      rw [length_bytesOfBitsMSB, hlen]
      omega
    have hdes : deserializeTree
        ((bitsOfBytesMSB (bytesOfBitsMSB
          ((true :: bitsMSB 8 0) ++ bitsMSB 32 (m + 1)))).length + 1)
        (bitsOfBytesMSB (bytesOfBitsMSB
          ((true :: bitsMSB 8 0) ++ bitsMSB 32 (m + 1))))
        = (HTree.node 0 0 .null .null,
           bitsMSB 32 (m + 1) ++ List.replicate ((8 - 41 % 8) % 8) false) := by
      rw [bitsOfBytes_bytesOfBits, hlen]
      rw [show ((true :: bitsMSB 8 0) ++ bitsMSB 32 (m + 1))
            ++ List.replicate ((8 - 41 % 8) % 8) false
          = true :: (bitsMSB 8 0
            ++ (bitsMSB 32 (m + 1) ++ List.replicate ((8 - 41 % 8) % 8) false)) from by
        simp [List.append_assoc]]
      exact deserializeTree_leaf _ 0 _ (by norm_num)
    have hread : readBitsMSB 32
        (bitsMSB 32 (m + 1) ++ List.replicate ((8 - 41 % 8) % 8) false)
        = some (m + 1, List.replicate ((8 - 41 % 8) % 8) false) :=
      readBitsMSB_bitsMSB 32 (m + 1) _ (by omega)
    have hdecode : hpDecodeSyms (HTree.node 0 0 .null .null) (m + 1)
        (List.replicate ((8 - 41 % 8) % 8) false)
        = some (List.replicate (m + 1) 0, List.replicate ((8 - 41 % 8) % 8) false) :=
      hpDecodeSyms_leaf (m + 1) _
    have hundo : undo_predictor (List.replicate (m + 1) 0)
        = List.replicate (m + 1) 0 := by
      have h := undo_predictor_repeated 0 m (by norm_num)
      simpa [List.replicate_succ] using h
    have hdec := hpDecompress_eq_of _ hbne 0 0 .null .null _ (m + 1) _ _ _
      hdes hread hdecode
    rw [hcomp, Option.some_bind, hdec, hundo]
  · -- nonzero byte: two-leaf tree, codes "0" for v and "1" for 0
    have hchar : ∀ i, i < 256 →
        (if (v :: List.replicate m 0).count i ≠ 0 then
          some (HTree.node i ((v :: List.replicate m 0).count i) HTree.null HTree.null)
        else none)
        = if i = 0 then some (HTree.node 0 m HTree.null HTree.null)
          else if i = v then some (HTree.node v 1 HTree.null HTree.null) else none := by
      intro i hi
      rw [count_repeated v m i hv0]
      by_cases hi0 : i = 0
      · subst hi0
        simp [show ¬ (m = 0) from by omega]
      · by_cases hiv : i = v
        · subst hiv
          simp [hi0]
        · simp [hi0, hiv]
    have hnodes : ((List.range 256).filterMap fun i =>
        if (v :: List.replicate m 0).count i ≠ 0 then
          some (HTree.node i ((v :: List.replicate m 0).count i) HTree.null HTree.null)
        else none)
        = [HTree.node 0 m HTree.null HTree.null,
           HTree.node v 1 HTree.null HTree.null] := by
      exact filterMap_range_pair _ 0 v _ _ 256 (by omega) (by omega) hchar
    have hsel : huffSelect [HTree.node 0 m HTree.null HTree.null,
        HTree.node v 1 HTree.null HTree.null] = (1, 0) := by
      simp only [huffSelect, List.length_cons, List.length_nil]
      rw [show List.range (0 + 1 + 1) = [0, 1] from rfl]
      simp only [List.foldl_cons, List.foldl_nil]
      norm_num [nodeFreq]
      omega
    have hstep : huffStep [HTree.node 0 m HTree.null HTree.null,
        HTree.node v 1 HTree.null HTree.null]
        = [HTree.node 0 (1 + m) (HTree.node v 1 HTree.null HTree.null)
            (HTree.node 0 m HTree.null HTree.null)] := by
      simp [huffStep, hsel, nodeFreq, List.set, List.getD]
    have hloop : huffLoop (0 + 1 + 1) [HTree.node 0 m HTree.null HTree.null,
        HTree.node v 1 HTree.null HTree.null]
        = [HTree.node 0 (1 + m) (HTree.node v 1 HTree.null HTree.null)
            (HTree.node 0 m HTree.null HTree.null)] := by
      rw [show (0 + 1 + 1 : Nat) = 1 + 1 from rfl]
      rw [show huffLoop (1 + 1) [HTree.node 0 m HTree.null HTree.null,
          HTree.node v 1 HTree.null HTree.null]
          = huffLoop 1 (huffStep [HTree.node 0 m HTree.null HTree.null,
            HTree.node v 1 HTree.null HTree.null]) from by
        simp [huffLoop]]
      rw [hstep]
      simp [huffLoop]
    have htblv : (buildCodes (HTree.node 0 (1 + m)
        (HTree.node v 1 HTree.null HTree.null)
        (HTree.node 0 m HTree.null HTree.null)) [] fun _ => none) v
        = some [false] := by
      simp [buildCodes, hv0]
    have htbl0 : (buildCodes (HTree.node 0 (1 + m)
        (HTree.node v 1 HTree.null HTree.null)
        (HTree.node 0 m HTree.null HTree.null)) [] fun _ => none) 0
        = some [true] := by
      simp [buildCodes]
    have hcomp : hpCompress (List.replicate (m + 1) v)
        = some (bytesOfBitsMSB
            ((false :: ((true :: bitsMSB 8 v) ++ (true :: bitsMSB 8 0)))
              ++ bitsMSB 32 (m + 1) ++ (false :: List.replicate m true))) := by
      simp only [hpCompress, if_neg hne]
      rw [hdata, hnodes]
      simp only [List.length_cons, List.length_nil, List.length_replicate]
      rw [hloop]
      simp only [List.length_singleton, if_pos rfl, if_true, List.getD_cons_zero]
      rw [serializeTree_node2_eq]
      rw [foldl_writes_concat]
      have hcodes : ((v :: List.replicate m 0).map fun d =>
          ((buildCodes (HTree.node 0 (1 + m)
            (HTree.node v 1 HTree.null HTree.null)
            (HTree.node 0 m HTree.null HTree.null)) [] fun _ => none) d).getD []).flatten
          = false :: List.replicate m true := by
        simp only [List.map_cons, List.map_replicate, htblv, htbl0]
        simp [flatten_replicate_singleton]
      rw [hcodes]
      rw [bwWriteBits_bwWriteBits, bwWriteBits_bwWriteBits]
      rw [bwWriteBits_append_of_room]
      · simp [List.append_assoc]
      · dsimp only
        simp only [List.length_nil, List.length_append, List.length_cons,
          length_bitsMSB, List.length_replicate]
        omega
    have hlen : ((false :: ((true :: bitsMSB 8 v) ++ (true :: bitsMSB 8 0)))
        ++ bitsMSB 32 (m + 1) ++ (false :: List.replicate m true)).length
        = 52 + m := by
      simp [length_bitsMSB]
      omega
    have hbne : bytesOfBitsMSB
        ((false :: ((true :: bitsMSB 8 v) ++ (true :: bitsMSB 8 0)))
          ++ bitsMSB 32 (m + 1) ++ (false :: List.replicate m true)) ≠ [] := by
      apply List.ne_nil_of_length_pos
      rw [length_bytesOfBitsMSB, hlen]
      omega
    have hdes : deserializeTree
        ((bitsOfBytesMSB (bytesOfBitsMSB
          ((false :: ((true :: bitsMSB 8 v) ++ (true :: bitsMSB 8 0)))
            ++ bitsMSB 32 (m + 1) ++ (false :: List.replicate m true)))).length + 1)
        (bitsOfBytesMSB (bytesOfBitsMSB
          ((false :: ((true :: bitsMSB 8 v) ++ (true :: bitsMSB 8 0)))
            ++ bitsMSB 32 (m + 1) ++ (false :: List.replicate m true))))
        = (HTree.node 0 0 (HTree.node v 0 .null .null) (HTree.node 0 0 .null .null),
           bitsMSB 32 (m + 1) ++ ((false :: List.replicate m true)
             ++ List.replicate ((8 - (52 + m) % 8) % 8) false)) := by
      rw [bitsOfBytes_bytesOfBits, hlen]
      obtain ⟨F, hF⟩ : ∃ F, (((false :: ((true :: bitsMSB 8 v) ++ (true :: bitsMSB 8 0)))
          ++ bitsMSB 32 (m + 1) ++ (false :: List.replicate m true))
          ++ List.replicate ((8 - (52 + m) % 8) % 8) false).length + 1 = F + 3 := by
        refine ⟨(((false :: ((true :: bitsMSB 8 v) ++ (true :: bitsMSB 8 0)))
          ++ bitsMSB 32 (m + 1) ++ (false :: List.replicate m true))
          ++ List.replicate ((8 - (52 + m) % 8) % 8) false).length - 2, ?_⟩
        simp only [List.length_append, List.length_cons, length_bitsMSB,
          List.length_replicate]
        omega
      rw [hF]
      rw [show ((false :: ((true :: bitsMSB 8 v) ++ (true :: bitsMSB 8 0)))
            ++ bitsMSB 32 (m + 1) ++ (false :: List.replicate m true))
            ++ List.replicate ((8 - (52 + m) % 8) % 8) false
          = false :: (true :: (bitsMSB 8 v ++ (true :: (bitsMSB 8 0
            ++ (bitsMSB 32 (m + 1) ++ ((false :: List.replicate m true)
              ++ List.replicate ((8 - (52 + m) % 8) % 8) false)))))) from by
        simp [List.append_assoc]]
      exact deserializeTree_pair F v _ hv
    have hread : readBitsMSB 32
        (bitsMSB 32 (m + 1) ++ ((false :: List.replicate m true)
          ++ List.replicate ((8 - (52 + m) % 8) % 8) false))
        = some (m + 1, (false :: List.replicate m true)
            ++ List.replicate ((8 - (52 + m) % 8) % 8) false) :=
      readBitsMSB_bitsMSB 32 (m + 1) _ (by omega)
    have hdecode : hpDecodeSyms
        (HTree.node 0 0 (HTree.node v 0 .null .null) (HTree.node 0 0 .null .null))
        (m + 1) ((false :: List.replicate m true)
          ++ List.replicate ((8 - (52 + m) % 8) % 8) false)
        = some (v :: List.replicate m 0,
            List.replicate ((8 - (52 + m) % 8) % 8) false) := by
      simp only [List.cons_append, hpDecodeSyms]
      rw [hpWalk_pair]
      simp only [if_neg Bool.false_ne_true]
      rw [hpDecodeSyms_trues]
    have hdec := hpDecompress_eq_of _ hbne 0 0 _ _ _ (m + 1) _ _ _
      hdes hread hdecode
    rw [hcomp, Option.some_bind, hdec, undo_predictor_repeated v m hv]

/-- Witness for `c5_repeated_block_roundtrip`. -/
theorem c5_repeated_block_roundtrip_witness :
    ((65 : Nat) < 256 ∧ 3 ≤ 3 ∧ (3 : Nat) < 2 ^ 32) ∧
    (hpCompress (List.replicate 3 65)).bind hpDecompress
      = some (List.replicate 3 65) :=
  ⟨⟨by decide, by decide, by norm_num⟩,
   c5_repeated_block_roundtrip 65 3 (by decide) (by decide) (by norm_num)⟩

end GSEA
